import Mathlib

/-!
Verification of the documentation-packaging pipeline (template expansion,
snippet extraction, frontmatter parsing, per-topic variant building, index
generation and snippet validation).  All definitions are shallow embeddings
of the TypeScript source: text is `List Char`, JavaScript `Map` is an
insertion-ordered association list, thrown exceptions are `Except`, and the
JavaScript regular expressions are translated into explicit recursive
scanners that reproduce the greedy/lazy backtracking behaviour of the
concrete patterns used by the source.
-/

/-- JavaScript `\s` on the ASCII inputs used throughout the repository. -/
def isWS (c : Char) : Bool :=
  c = ' ' || c = '\t' || c = '\n' || c = '\r'

/-- A JavaScript line terminator (the ASCII ones): `.` never matches these,
and with the multiline flag `^` matches after and `$` before them. -/
def isLineTerm (c : Char) : Bool :=
  c = '\n' || c = '\r'

/-- Strip a literal pattern from the front of a character list; `none` when
the list does not start with the pattern. -/
def stripPre : List Char → List Char → Option (List Char)
  | [], s => some s
  | _ :: _, [] => none
  | p :: ps, c :: cs => if c = p then stripPre ps cs else none

/-- Whether a character list starts with the given literal pattern. -/
def isPre (p s : List Char) : Bool :=
  (stripPre p s).isSome

/-- JavaScript `String.prototype.trim` (both ends). -/
def jsTrim (l : List Char) : List Char :=
  ((l.dropWhile isWS).reverse.dropWhile isWS).reverse

/-- The run of trailing whitespace of a character list (reversed order is
irrelevant for the membership facts we use). -/
def trailingWS (l : List Char) : List Char :=
  l.reverse.takeWhile isWS

/-- JavaScript `String.prototype.replace` with a plain-string pattern:
replace the first occurrence only. -/
def replaceFirst (pat rep : List Char) : List Char → List Char
  | [] => []
  | c :: t =>
    match stripPre pat (c :: t) with
    | some r => rep ++ r
    | none => c :: replaceFirst pat rep t

/-- Insertion-ordered map from names to bodies, mirroring a JavaScript
`Map<string, string>` as used by the build script. -/
def SMap : Type := List (List Char × List Char)

instance : DecidableEq SMap := by
  unfold SMap
  infer_instance

/-- JavaScript `Map.prototype.get` (as `Option`). -/
def mapGet : SMap → List Char → Option (List Char)
  | [], _ => none
  | (k, v) :: t, k' => if k = k' then some v else mapGet t k'

/-- JavaScript `Map.prototype.set`: replace in place when the key exists,
append otherwise. -/
def mapSet : SMap → List Char → List Char → SMap
  | [], k, v => [(k, v)]
  | (k', v') :: t, k, v =>
    if k' = k then (k, v) :: t else (k', v') :: mapSet t k v

/-- The two supported languages, the literal union type of the source
(`const LANGUAGES = ["typescript", "python"]`). -/
inductive Lang where
  | typescript
  | python
deriving DecidableEq

/-- The string value of the language union member. -/
def langName : Lang → List Char
  | .typescript => "typescript".toList
  | .python => "python".toList

/-- `LANG_EXTENSIONS` of the source. -/
def langExt : Lang → List Char
  | .typescript => "ts".toList
  | .python => "py".toList

/-- The fence tag chosen by `replaceCodePlaceholders`
(`language === "typescript" ? "typescript" : "python"`). -/
def langTag : Lang → List Char
  | .typescript => "typescript".toList
  | .python => "python".toList

/-- The iteration order of the build (`for (const language of LANGUAGES)`). -/
def LANGS : List Lang := [.typescript, .python]

/-- `stripPre` of a pattern against the pattern followed by anything. -/
theorem stripPre_append (p s : List Char) : stripPre p (p ++ s) = some s := by
  induction p with
  | nil => simp [stripPre]
  | cons c t ih => simp [stripPre, ih]

/-- Length accounting for a successful `stripPre`. -/
theorem stripPre_length {p t r : List Char} (h : stripPre p t = some r) :
    r.length + p.length = t.length := by
  induction p generalizing t with
  | nil => simp [stripPre] at h; subst h; simp
  | cons a as ih =>
    cases t with
    | nil => simp [stripPre] at h
    | cons b bs =>
      simp only [stripPre] at h
      by_cases hba : b = a
      · rw [if_pos hba] at h
        have := ih h
        simp [List.length_cons]; omega
      · rw [if_neg hba] at h; exact absurd h (by simp)

/-- One match attempt of the placeholder pattern at the head of the input:
literal double brace, literal `CODE:`, a maximal nonempty run of
characters other than a closing brace, then two closing braces.  Returns
the captured name and the input following the whole match.  The greedy
`[^\x7d]+` cannot backtrack successfully, because a shorter capture would
require the two closing braces to match a non-brace character. -/
def tryPlaceholder (s : List Char) : Option (List Char × List Char) :=
  match stripPre "\x7b\x7bCODE:".toList s with
  | none => none
  | some r =>
    let nm := r.takeWhile (fun c => c ≠ '\x7d')
    if nm.isEmpty then none
    else
      match stripPre ['\x7d', '\x7d'] (r.drop nm.length) with
      | some rest => some (nm, rest)
      | none => none

theorem tryPlaceholder_length {s : List Char} {nm rest : List Char}
    (h : tryPlaceholder s = some (nm, rest)) : rest.length < s.length := by
  unfold tryPlaceholder at h
  cases hp : stripPre "\x7b\x7bCODE:".toList s with
  | none => rw [hp] at h; exact absurd h (by simp)
  | some r =>
    rw [hp] at h
    simp only at h
    set nm' := r.takeWhile (fun c => c ≠ '\x7d') with hnmdef
    by_cases hnm : nm'.isEmpty
    · rw [if_pos hnm] at h; exact absurd h (by simp)
    · rw [if_neg hnm] at h
      cases hq : stripPre ['\x7d', '\x7d'] (r.drop nm'.length) with
      | none => rw [hq] at h; exact absurd h (by simp)
      | some rest' =>
        rw [hq] at h
        simp only [Option.some.injEq, Prod.mk.injEq] at h
        obtain ⟨hnm', hrest⟩ := h
        subst hrest
        have hr : r.length + 7 ≤ s.length := by
          have := stripPre_length hp
          simp at this
          omega
        have h2 := stripPre_length hq
        have h3 : (r.drop nm'.length).length ≤ r.length := by
          simp [List.length_drop]
        simp at h2
        omega

instance {ε α : Type} [DecidableEq ε] [DecidableEq α] : DecidableEq (Except ε α) := by
  intro a b
  cases a with
  | error e =>
    cases b with
    | error e' => exact decidable_of_iff (e = e') (by simp)
    | ok v' => exact isFalse (by simp)
  | ok v =>
    cases b with
    | error e' => exact isFalse (by simp)
    | ok v' => exact decidable_of_iff (v = v') (by simp)

/-- Whether a looked-up snippet body is falsy in JavaScript (`!code` is
true both when the name is absent and when the body is the empty string). -/
def falsyLookup (m : SMap) (nm : List Char) : Bool :=
  match mapGet m nm with
  | none => true
  | some v => v.isEmpty

/-- The text of the aggregate error thrown by `replaceCodePlaceholders`:
`Missing snippets for ${language} in ${templatePath}: ${missing.join(", ")}`. -/
def missingMsg (lang : Lang) (path : List Char) (missing : List (List Char)) : List Char :=
  "Missing snippets for ".toList ++ langName lang ++ " in ".toList ++ path
    ++ ": ".toList ++ List.intercalate ", ".toList missing

/-- The single left-to-right pass of `template.replace(/\x7b\x7bCODE:([^\x7d]+)\x7d\x7d/g, ...)`:
the first component is the text produced so far, the second the list of
missing names pushed by the callback, in scan order.  A resolved placeholder
whose body is truthy is replaced by a fenced block; a falsy lookup leaves
the matched text untouched and records the name.  The scan continues after
each match, so replacement text is never re-scanned.  Fuel is the input
length, which `tryPlaceholder_length` shows is always sufficient. -/
def expandGo (m : SMap) (lang : Lang) : Nat → List Char → (List Char × List (List Char))
  | 0, s => (s, [])
  | _ + 1, [] => ([], [])
  | fuel + 1, c :: t =>
    match tryPlaceholder (c :: t) with
    | some (nm, rest) =>
      match mapGet m nm with
      | some code =>
        if code.isEmpty then
          let p := expandGo m lang fuel rest
          ("\x7b\x7bCODE:".toList ++ nm ++ ['\x7d', '\x7d'] ++ p.1, nm :: p.2)
        else
          let p := expandGo m lang fuel rest
          ("```".toList ++ langTag lang ++ '\n' :: code ++ '\n' :: "```".toList ++ p.1, p.2)
      | none =>
        let p := expandGo m lang fuel rest
        ("\x7b\x7bCODE:".toList ++ nm ++ ['\x7d', '\x7d'] ++ p.1, nm :: p.2)
    | none =>
      let p := expandGo m lang fuel t
      (c :: p.1, p.2)

/-- The scan with its canonical fuel. -/
def expandScan (m : SMap) (lang : Lang) (s : List Char) : List Char × List (List Char) :=
  expandGo m lang s.length s

/-- The names captured by a fresh placeholder scan of a text, in order,
independent of any snippet mapping. -/
def findNamesGo : Nat → List Char → List (List Char)
  | 0, _ => []
  | _ + 1, [] => []
  | fuel + 1, c :: t =>
    match tryPlaceholder (c :: t) with
    | some (nm, rest) => nm :: findNamesGo fuel rest
    | none => findNamesGo fuel t

/-- All placeholder names a scan finds in a text. -/
def findNames (s : List Char) : List (List Char) :=
  findNamesGo s.length s

/-- `replaceCodePlaceholders` of the build script: run the single
substitution pass, then throw one aggregate error when any names were
recorded missing, otherwise return the substituted text. -/
def replaceCodePlaceholders (template : List Char) (m : SMap) (lang : Lang)
    (templatePath : List Char) : Except (List Char) (List Char) :=
  let p := expandScan m lang template
  if p.2.isEmpty then .ok p.1
  else .error (missingMsg lang templatePath p.2)

theorem expandGo_fuel_irrel (m : SMap) (lang : Lang) :
    ∀ f₁ f₂ s, s.length ≤ f₁ → s.length ≤ f₂ →
      expandGo m lang f₁ s = expandGo m lang f₂ s := by
  intro f₁
  induction f₁ with
  | zero =>
    intro f₂ s h1 _
    have : s = [] := List.length_eq_zero.mp (Nat.le_zero.mp h1)
    subst this
    cases f₂ <;> simp [expandGo]
  | succ f ih =>
    intro f₂ s h1 h2
    cases s with
    | nil => cases f₂ <;> simp [expandGo]
    | cons c t =>
      cases f₂ with
      | zero => simp at h2
      | succ g =>
        simp only [expandGo]
        cases hp : tryPlaceholder (c :: t) with
        | none =>
          have ht : t.length ≤ f := by simp at h1; omega
          have ht2 : t.length ≤ g := by simp at h2; omega
          simp only [ih g t ht ht2]
        | some pr =>
          obtain ⟨nm, rest⟩ := pr
          have hl := tryPlaceholder_length hp
          have hr1 : rest.length ≤ f := by simp at h1 hl; omega
          have hr2 : rest.length ≤ g := by simp at h2 hl; omega
          simp only [ih g rest hr1 hr2]

theorem findNamesGo_fuel_irrel :
    ∀ f₁ f₂ s, s.length ≤ f₁ → s.length ≤ f₂ →
      findNamesGo f₁ s = findNamesGo f₂ s := by
  intro f₁
  induction f₁ with
  | zero =>
    intro f₂ s h1 _
    have : s = [] := List.length_eq_zero.mp (Nat.le_zero.mp h1)
    subst this
    cases f₂ <;> simp [findNamesGo]
  | succ f ih =>
    intro f₂ s h1 h2
    cases s with
    | nil => cases f₂ <;> simp [findNamesGo]
    | cons c t =>
      cases f₂ with
      | zero => simp at h2
      | succ g =>
        simp only [findNamesGo]
        cases hp : tryPlaceholder (c :: t) with
        | none =>
          have ht : t.length ≤ f := by simp at h1; omega
          have ht2 : t.length ≤ g := by simp at h2; omega
          simp only [ih g t ht ht2]
        | some pr =>
          obtain ⟨nm, rest⟩ := pr
          have hl := tryPlaceholder_length hp
          have hr1 : rest.length ≤ f := by simp at h1 hl; omega
          have hr2 : rest.length ≤ g := by simp at h2 hl; omega
          simp only [ih g rest hr1 hr2]

/-- Step lemma: a position where no placeholder matches copies one
character. -/
theorem expandScan_skip {c : Char} {t : List Char} (m : SMap) (lang : Lang)
    (h : tryPlaceholder (c :: t) = none) :
    expandScan m lang (c :: t) = (c :: (expandScan m lang t).1, (expandScan m lang t).2) := by
  unfold expandScan
  simp only [List.length_cons, expandGo, h]

/-- Step lemma: a truthy lookup replaces the matched placeholder with a
fenced block tagged for the language. -/
theorem expandScan_found {s nm rest code : List Char} (m : SMap) (lang : Lang)
    (h : tryPlaceholder s = some (nm, rest)) (hm : mapGet m nm = some code)
    (hc : ¬code.isEmpty) :
    expandScan m lang s =
      ("```".toList ++ langTag lang ++ '\n' :: code ++ '\n' :: "```".toList
          ++ (expandScan m lang rest).1,
        (expandScan m lang rest).2) := by
  unfold expandScan
  cases s with
  | nil => simp [tryPlaceholder, stripPre] at h
  | cons c t =>
    have hl := tryPlaceholder_length h
    simp only [List.length_cons, expandGo, h, hm, if_neg hc]
    rw [expandGo_fuel_irrel m lang t.length rest.length rest (by simp at hl; omega) le_rfl]

/-- Step lemma: a falsy lookup (absent name, or a name mapped to the empty
string) leaves the matched text in place and records the name missing. -/
theorem expandScan_missing {s nm rest : List Char} (m : SMap) (lang : Lang)
    (h : tryPlaceholder s = some (nm, rest)) (hm : falsyLookup m nm = true) :
    expandScan m lang s =
      ("\x7b\x7bCODE:".toList ++ nm ++ ['\x7d', '\x7d'] ++ (expandScan m lang rest).1,
        nm :: (expandScan m lang rest).2) := by
  unfold expandScan
  cases s with
  | nil => simp [tryPlaceholder, stripPre] at h
  | cons c t =>
    have hl := tryPlaceholder_length h
    have hrw := expandGo_fuel_irrel m lang t.length rest.length rest (by simp at hl; omega) le_rfl
    unfold falsyLookup at hm
    cases hg : mapGet m nm with
    | none => simp only [List.length_cons, expandGo, h, hg]; rw [hrw]
    | some v =>
      rw [hg] at hm
      simp only [List.length_cons, expandGo, h, hg, if_pos hm]
      rw [hrw]

theorem findNames_skip {c : Char} {t : List Char}
    (h : tryPlaceholder (c :: t) = none) : findNames (c :: t) = findNames t := by
  unfold findNames
  simp only [List.length_cons, findNamesGo, h]

theorem findNames_match {s nm rest : List Char}
    (h : tryPlaceholder s = some (nm, rest)) :
    findNames s = nm :: findNames rest := by
  unfold findNames
  cases s with
  | nil => simp [tryPlaceholder, stripPre] at h
  | cons c t =>
    have hl := tryPlaceholder_length h
    simp only [List.length_cons, findNamesGo, h]
    rw [findNamesGo_fuel_irrel t.length rest.length rest (by simp at hl; omega) le_rfl]

/-- The missing list of the pass is exactly the falsy-lookup subsequence of
the scanned placeholder names, in scan order. -/
theorem expandScan_snd_eq_filter (m : SMap) (lang : Lang) :
    ∀ s, (expandScan m lang s).2 = (findNames s).filter (falsyLookup m) := by
  have H : ∀ n s, s.length ≤ n →
      (expandScan m lang s).2 = (findNames s).filter (falsyLookup m) := by
    intro n
    induction n with
    | zero =>
      intro s h
      have : s = [] := List.length_eq_zero.mp (Nat.le_zero.mp h)
      subst this
      simp [expandScan, expandGo, findNames, findNamesGo]
    | succ n ih =>
      intro s h
      cases s with
      | nil => simp [expandScan, expandGo, findNames, findNamesGo]
      | cons c t =>
        cases hp : tryPlaceholder (c :: t) with
        | none =>
          rw [expandScan_skip m lang hp, findNames_skip hp]
          exact ih t (by simp at h; omega)
        | some pr =>
          obtain ⟨nm, rest⟩ := pr
          have hl := tryPlaceholder_length hp
          have hrest : rest.length ≤ n := by simp at h hl; omega
          rw [findNames_match hp]
          by_cases hf : falsyLookup m nm = true
          · rw [expandScan_missing m lang hp hf]
            simp [List.filter_cons, hf, ih rest hrest]
          · cases hg : mapGet m nm with
            | none => exact absurd (by simp [falsyLookup, hg]) hf
            | some code =>
              have hc : ¬code.isEmpty := by
                intro hcc
                exact hf (by simp [falsyLookup, hg, hcc])
              rw [expandScan_found m lang hp hg hc]
              simp only [List.filter_cons]
              have : falsyLookup m nm = false := by
                cases hb : falsyLookup m nm
                · rfl
                · exact absurd hb hf
              rw [this]
              simp [ih rest hrest]
  intro s
  exact H s.length s le_rfl

theorem expandScan_nil (m : SMap) (lang : Lang) : expandScan m lang [] = ([], []) := by
  simp [expandScan, expandGo]

/-- `takeWhile` over an append whose left part satisfies the predicate and
whose right part starts with a failing character. -/
theorem takeWhile_append_stop {p : Char → Bool} {l : List Char} {x : Char} {r : List Char}
    (hl : ∀ c ∈ l, p c = true) (hx : p x = false) :
    (l ++ x :: r).takeWhile p = l := by
  induction l with
  | nil => simp [List.takeWhile_cons, hx]
  | cons a t ih =>
    have ha : p a = true := hl a (by simp)
    have ih' := ih (fun c hc => hl c (by simp [hc]))
    simp only [List.cons_append]
    rw [List.takeWhile_cons, if_pos ha, ih']

/-- The placeholder matcher on an exact placeholder occurrence at the head
of the input. -/
theorem tryPlaceholder_exact {nm : List Char} (rest : List Char)
    (hne : nm ≠ []) (hnb : ∀ c ∈ nm, c ≠ '\x7d') :
    tryPlaceholder ("\x7b\x7bCODE:".toList ++ nm ++ ['\x7d', '\x7d'] ++ rest) =
      some (nm, rest) := by
  unfold tryPlaceholder
  have h1 : stripPre "\x7b\x7bCODE:".toList ("\x7b\x7bCODE:".toList ++ nm ++ ['\x7d', '\x7d'] ++ rest) =
      some (nm ++ ['\x7d', '\x7d'] ++ rest) := by
    have := stripPre_append "\x7b\x7bCODE:".toList (nm ++ ['\x7d', '\x7d'] ++ rest)
    simpa [List.append_assoc] using this
  rw [h1]
  have h2 : (nm ++ ['\x7d', '\x7d'] ++ rest).takeWhile (fun c => c ≠ '\x7d') = nm := by
    rw [List.append_assoc]
    exact takeWhile_append_stop (fun c hc => by simp [hnb c hc]) (by simp)
  simp only [h2]
  have h3 : (nm ++ ['\x7d', '\x7d'] ++ rest).drop nm.length = ['\x7d', '\x7d'] ++ rest := by
    rw [List.append_assoc]
    exact List.drop_left nm (['\x7d', '\x7d'] ++ rest)
  rw [if_neg (by simpa using hne)]
  rw [h3, stripPre_append ['\x7d', '\x7d'] rest]

/-- Claim C1 counterexample: with the mapping `a ↦ ""` (the name `a` is
present as a key) and the template `\x7b\x7bCODE:a\x7d\x7d\x7b\x7bCODE:b\x7d\x7d`, the thrown
aggregate error claims `a` is missing even though `a` is a key of the
mapping, because `!code` is also true for an empty-string body.  This
falsifies the conjunct that the message never names a mapped key. -/
theorem c1_counterexample :
    replaceCodePlaceholders "\x7b\x7bCODE:a\x7d\x7d\x7b\x7bCODE:b\x7d\x7d".toList
        [("a".toList, [])] .typescript "tpl.md".toList =
      .error "Missing snippets for typescript in tpl.md: a, b".toList ∧
    mapGet [("a".toList, [])] "a".toList = some [] := by
  constructor
  · decide
  · decide

/-- Claim C1 (amended): whenever any placeholder name fails to resolve
(lookup absent, or present with an empty-string body, which JavaScript
treats as falsy), the expansion throws exactly one aggregate error — the
single `Except.error` value — whose message lists every recorded missing
name in scan order, joined with a comma, and names the template path and
the language; every listed name has an absent or empty-string lookup, and
no name mapped to a non-empty body is listed. -/
theorem c1_amended (template : List Char) (m : SMap) (lang : Lang) (path : List Char)
    (h : (expandScan m lang template).2 ≠ []) :
    replaceCodePlaceholders template m lang path =
        .error (missingMsg lang path (expandScan m lang template).2) ∧
    (∀ nm ∈ (expandScan m lang template).2,
        mapGet m nm = none ∨ mapGet m nm = some []) ∧
    (∀ nm body, mapGet m nm = some body → body ≠ [] →
        nm ∉ (expandScan m lang template).2) := by
  refine ⟨?_, ?_, ?_⟩
  · unfold replaceCodePlaceholders
    rw [if_neg (by simpa using h)]
  · intro nm hnm
    rw [expandScan_snd_eq_filter m lang template] at hnm
    have hf : falsyLookup m nm = true := (List.mem_filter.mp hnm).2
    unfold falsyLookup at hf
    cases hg : mapGet m nm with
    | none => exact Or.inl rfl
    | some v =>
      rw [hg] at hf
      simp only [List.isEmpty_iff] at hf
      exact Or.inr (by simp [hf])
  · intro nm body hg hb hnm
    rw [expandScan_snd_eq_filter m lang template] at hnm
    have hf : falsyLookup m nm = true := (List.mem_filter.mp hnm).2
    unfold falsyLookup at hf
    rw [hg] at hf
    exact hb (List.isEmpty_iff.mp hf)

/-- Witness for C1 (amended) at the template `\x7b\x7bCODE:a\x7d\x7d\x7b\x7bCODE:b\x7d\x7d`
with mapping `b ↦ "y"`: the missing list is `[a]`, the error names `a`
and not the resolvable `b`. -/
theorem c1_amended_witness :
    (expandScan [("b".toList, "y".toList)] .typescript
        "\x7b\x7bCODE:a\x7d\x7d\x7b\x7bCODE:b\x7d\x7d".toList).2 ≠ [] ∧
    replaceCodePlaceholders "\x7b\x7bCODE:a\x7d\x7d\x7b\x7bCODE:b\x7d\x7d".toList
        [("b".toList, "y".toList)] .typescript "tpl.md".toList =
      .error (missingMsg .typescript "tpl.md".toList
        (expandScan [("b".toList, "y".toList)] .typescript
          "\x7b\x7bCODE:a\x7d\x7d\x7b\x7bCODE:b\x7d\x7d".toList).2) := by
  refine ⟨by decide, ?_⟩
  exact (c1_amended "\x7b\x7bCODE:a\x7d\x7d\x7b\x7bCODE:b\x7d\x7d".toList
    [("b".toList, "y".toList)] .typescript "tpl.md".toList (by decide)).1

/-- Claim C2 counterexample: the name `a` is present as a key of the
mapping with an empty body, yet expansion of `\x7b\x7bCODE:a\x7d\x7d` does not emit
an empty fenced block — it records `a` missing and throws, because the
source tests `!code`, which is true for the empty string. -/
theorem c2_counterexample :
    mapGet [("a".toList, [])] "a".toList = some [] ∧
    replaceCodePlaceholders "\x7b\x7bCODE:a\x7d\x7d".toList [("a".toList, [])]
        .typescript "t.md".toList =
      .error "Missing snippets for typescript in t.md: a".toList := by
  constructor
  · decide
  · decide

/-- Claim C2 (amended): a placeholder whose name is mapped to a NON-EMPTY
body — including an all-whitespace body, which is truthy — is replaced by a
fenced block tagged with the target language and is not recorded missing;
a name mapped to the empty string is treated as missing instead.  Stated
for a template consisting of the placeholder itself; the name must be
nonempty and free of closing braces, as the pattern requires. -/
theorem c2_amended (m : SMap) (nm body : List Char) (lang : Lang) (path : List Char)
    (hg : mapGet m nm = some body) (hb : body ≠ [])
    (hne : nm ≠ []) (hnb : ∀ c ∈ nm, c ≠ '\x7d') :
    replaceCodePlaceholders ("\x7b\x7bCODE:".toList ++ nm ++ ['\x7d', '\x7d']) m lang path =
      .ok ("```".toList ++ langTag lang ++ '\n' :: body ++ '\n' :: "```".toList) := by
  have hp : tryPlaceholder ("\x7b\x7bCODE:".toList ++ nm ++ ['\x7d', '\x7d']) = some (nm, []) := by
    have := tryPlaceholder_exact [] hne hnb
    simpa using this
  have hfound := expandScan_found m lang hp hg (by simpa [List.isEmpty_iff] using hb)
  unfold replaceCodePlaceholders
  rw [hfound]
  simp [expandScan_nil]

/-- Witness for C2 (amended) at the all-whitespace body `" "` for name `a`:
empty-but-whitespace is truthy, so the placeholder is replaced by a fenced
block containing the single space. -/
theorem c2_amended_witness :
    mapGet [("a".toList, " ".toList)] "a".toList = some " ".toList ∧
    replaceCodePlaceholders "\x7b\x7bCODE:a\x7d\x7d".toList [("a".toList, " ".toList)]
        .typescript "t.md".toList =
      .ok "```typescript\n \n```".toList := by
  refine ⟨by decide, ?_⟩
  have h := c2_amended [("a".toList, " ".toList)] "a".toList " ".toList
    .typescript "t.md".toList (by decide) (by decide) (by decide) (by decide)
  simpa using h

/-- Claim C4 counterexample: with the mapping `a ↦ "\x7b\x7bCODE:a\x7d\x7d"` the
expansion of `\x7b\x7bCODE:a\x7d\x7d` succeeds, yet the returned text still
contains the placeholder syntax `\x7b\x7bCODE:a\x7d\x7d` for the mapped name `a`,
because the snippet body is inserted verbatim without re-scanning. -/
theorem c4_counterexample :
    replaceCodePlaceholders "\x7b\x7bCODE:a\x7d\x7d".toList
        [("a".toList, "\x7b\x7bCODE:a\x7d\x7d".toList)] .typescript "t.md".toList =
      .ok "```typescript\n\x7b\x7bCODE:a\x7d\x7d\n```".toList ∧
    findNames "```typescript\n\x7b\x7bCODE:a\x7d\x7d\n```".toList = ["a".toList] ∧
    mapGet [("a".toList, "\x7b\x7bCODE:a\x7d\x7d".toList)] "a".toList ≠ none := by
  refine ⟨by decide, by decide, by decide⟩

/-- Claim C4 (amended): on a successful return the output is exactly the
text of the single substitution pass, and every placeholder name the
template scan finds resolved to a non-empty body — unresolved-name
placeholders never reach a successful return.  Placeholder syntax can
still appear in the output when a snippet body itself contains it, since
bodies are inserted verbatim and never re-scanned (single pass). -/
theorem c4_amended (template : List Char) (m : SMap) (lang : Lang) (path out : List Char)
    (h : replaceCodePlaceholders template m lang path = .ok out) :
    out = (expandScan m lang template).1 ∧
    (∀ nm ∈ findNames template, ∃ body, mapGet m nm = some body ∧ body ≠ []) := by
  unfold replaceCodePlaceholders at h
  by_cases he : (expandScan m lang template).2.isEmpty
  · rw [if_pos he] at h
    simp only [Except.ok.injEq] at h
    refine ⟨h.symm, ?_⟩
    intro nm hnm
    by_cases hf : falsyLookup m nm = true
    · have : nm ∈ (expandScan m lang template).2 := by
        rw [expandScan_snd_eq_filter m lang template]
        exact List.mem_filter.mpr ⟨hnm, hf⟩
      rw [List.isEmpty_iff.mp he] at this
      simp at this
    · cases hg : mapGet m nm with
      | none => exact absurd (by simp [falsyLookup, hg]) hf
      | some body =>
        refine ⟨body, rfl, ?_⟩
        intro hbe
        exact hf (by simp [falsyLookup, hg, hbe])
  · rw [if_neg he] at h
    exact absurd h (by simp)

/-- Witness for C4 (amended): a successful expansion with mapping
`a ↦ "x"` has the pass's output and a resolvable lookup for the scanned
name `a`. -/
theorem c4_amended_witness :
    replaceCodePlaceholders "\x7b\x7bCODE:a\x7d\x7d".toList [("a".toList, "x".toList)]
        .typescript "t.md".toList = .ok "```typescript\nx\n```".toList ∧
    "```typescript\nx\n```".toList =
      (expandScan [("a".toList, "x".toList)] .typescript "\x7b\x7bCODE:a\x7d\x7d".toList).1 := by
  refine ⟨by decide, ?_⟩
  exact (c4_amended "\x7b\x7bCODE:a\x7d\x7d".toList [("a".toList, "x".toList)]
    .typescript "t.md".toList "```typescript\nx\n```".toList (by decide)).1

/-- One record of the snippet validators (`ValidationResult` of the
source): file path, boolean success, optional diagnostic text. -/
structure VRes where
  vfile : List Char
  vsuccess : Bool
  verrors : Option (List Char)
deriving DecidableEq

/-- `allResults.filter((r) => !r.success)` of the validators. -/
def vFailed (rs : List VRes) : List VRes :=
  rs.filter (fun r => !r.vsuccess)

/-- The summary printed after all files are checked, shared verbatim by the
TypeScript and the Python validator `main`s. -/
def summaryLines (rs : List VRes) : List (List Char) :=
  ["---".toList,
   "Total files: ".toList ++ (toString rs.length).toList,
   "Passed: ".toList ++ (toString (rs.length - (vFailed rs).length)).toList,
   "Failed: ".toList ++ (toString (vFailed rs).length).toList]

/-- The process exit status of a validator run: `process.exit(1)` when any
file failed, otherwise the implicit successful exit. -/
def validatorExit (rs : List VRes) : Nat :=
  if (vFailed rs).length > 0 then 1 else 0

/-- Claim C8: for every validation run, the printed summary reports the
total file count, the count of passed files and the count of failed files,
and the exit status is non-zero exactly when at least one file failed (so
it is zero when every file passed, since the status is 0 or 1). -/
theorem c8_validator_summary (rs : List VRes) :
    summaryLines rs =
      ["---".toList,
       "Total files: ".toList ++ (toString rs.length).toList,
       "Passed: ".toList ++ (toString (rs.countP (fun r => r.vsuccess))).toList,
       "Failed: ".toList ++ (toString (rs.countP (fun r => !r.vsuccess))).toList] ∧
    (validatorExit rs ≠ 0 ↔ ∃ r ∈ rs, r.vsuccess = false) := by
  have hfail : (vFailed rs).length = rs.countP (fun r => !r.vsuccess) := by
    unfold vFailed
    exact (List.countP_eq_length_filter _ _).symm
  have hsum : ∀ l : List VRes,
      l.countP (fun r => r.vsuccess) + l.countP (fun r => !r.vsuccess) = l.length := by
    intro l
    induction l with
    | nil => simp
    | cons r t ih =>
      cases hs : r.vsuccess
      · have h1 : List.countP (fun r => r.vsuccess) (r :: t) =
            List.countP (fun r => r.vsuccess) t := by
          simp [List.countP_cons, hs]
        have h2 : List.countP (fun r => !r.vsuccess) (r :: t) =
            List.countP (fun r => !r.vsuccess) t + 1 := by
          simp [List.countP_cons, hs]
        rw [h1, h2, List.length_cons]
        omega
      · have h1 : List.countP (fun r => r.vsuccess) (r :: t) =
            List.countP (fun r => r.vsuccess) t + 1 := by
          simp [List.countP_cons, hs]
        have h2 : List.countP (fun r => !r.vsuccess) (r :: t) =
            List.countP (fun r => !r.vsuccess) t := by
          simp [List.countP_cons, hs]
        rw [h1, h2, List.length_cons]
        omega
  have hsum := hsum rs
  constructor
  · unfold summaryLines
    rw [hfail]
    have : rs.length - rs.countP (fun r => !r.vsuccess) = rs.countP (fun r => r.vsuccess) := by
      omega
    rw [this]
  · unfold validatorExit
    rw [hfail]
    constructor
    · intro h
      have hpos : 0 < rs.countP (fun r => !r.vsuccess) := by
        by_contra hz
        rw [if_neg (by omega)] at h
        exact h rfl
      have := List.countP_pos_iff.mp hpos
      obtain ⟨r, hr, hp⟩ := this
      exact ⟨r, hr, by simpa using hp⟩
    · intro ⟨r, hr, hs⟩
      have hpos : 0 < rs.countP (fun r => !r.vsuccess) :=
        List.countP_pos_iff.mpr ⟨r, hr, by simp [hs]⟩
      rw [if_pos hpos]
      omega

/-- `TemplateInfo` of the build script (also the shape of
`GeneralFileInfo`): display name, description, file name. -/
structure TemplateInfo where
  tname : List Char
  tdesc : List Char
  tfile : List Char
deriving DecidableEq

/-- `language.charAt(0).toUpperCase() + language.slice(1)`. -/
def capFirst : List Char → List Char
  | [] => []
  | c :: t => c.toUpper :: t

/-- One topic line of the index:
`- [${template.name}](./${template.fileName}/${language}.md) - ${template.description}`. -/
def entryLine (lang : Lang) (t : TemplateInfo) : List Char :=
  "- [".toList ++ t.tname ++ "](./".toList ++ t.tfile ++ "/".toList
    ++ langName lang ++ ".md) - ".toList ++ t.tdesc

/-- One general-document line of the index:
`- [${file.name}](./${file.fileName}) - ${file.description}`. -/
def generalLine (g : TemplateInfo) : List Char :=
  "- [".toList ++ g.tname ++ "](./".toList ++ g.tfile ++ ") - ".toList ++ g.tdesc

/-- The inner loop `for (const template of templates) lines.push(...)`,
kept as the source's push-onto-the-end iteration. -/
def pushEntries (lang : Lang) : List TemplateInfo → List (List Char) → List (List Char)
  | [], acc => acc
  | t :: ts, acc => pushEntries lang ts (acc ++ [entryLine lang t])

/-- The outer loop `for (const language of LANGUAGES)`: push the section
header, the topic entries, then the blank separator line. -/
def pushLangSections : List Lang → List TemplateInfo → List (List Char) → List (List Char)
  | [], _, acc => acc
  | lang :: ls, ts, acc =>
    pushLangSections ls ts
      (pushEntries lang ts
        (acc ++ ["### ".toList ++ capFirst (langName lang) ++ "\n".toList]) ++ [[]])

/-- The loop over general files. -/
def pushGeneral : List TemplateInfo → List (List Char) → List (List Char)
  | [], acc => acc
  | g :: gs, acc => pushGeneral gs (acc ++ [generalLine g])

/-- The line list built by `generateSkillList`. -/
def skillListLines (templates generalFiles : List TemplateInfo) : List (List Char) :=
  let l1 := pushLangSections LANGS templates ["\n## Available Topics\n".toList]
  if generalFiles.isEmpty then l1
  else pushGeneral generalFiles (l1 ++ ["## General\n".toList]) ++ [[]]

/-- `generateSkillList` of the build script: the pushed lines joined with
newlines. -/
def generateSkillList (templates generalFiles : List TemplateInfo) : List Char :=
  List.intercalate "\n".toList (skillListLines templates generalFiles)

theorem pushEntries_eq (lang : Lang) :
    ∀ (ts : List TemplateInfo) (acc : List (List Char)),
      pushEntries lang ts acc = acc ++ ts.map (entryLine lang) := by
  intro ts
  induction ts with
  | nil => intro acc; simp [pushEntries]
  | cons t ts ih => intro acc; simp [pushEntries, ih]

theorem pushGeneral_eq :
    ∀ (gs : List TemplateInfo) (acc : List (List Char)),
      pushGeneral gs acc = acc ++ gs.map generalLine := by
  intro gs
  induction gs with
  | nil => intro acc; simp [pushGeneral]
  | cons g gs ih => intro acc; simp [pushGeneral, ih]

/-- Claim C10: the generated index lists the topic entries of each language
section in exactly the order of the input template list — the line list is
the fixed headers with `templates.map (entryLine ·)` spliced in for each
language in turn, with no re-sorting; instantiated at templates named
`b`, `a`, `c`, the three entry lines appear in exactly that order. -/
theorem c10_index_preserves_discovery_order (templates generalFiles : List TemplateInfo) :
    skillListLines templates generalFiles =
      "\n## Available Topics\n".toList ::
        ("### Typescript\n".toList :: templates.map (entryLine .typescript) ++ [[]]) ++
        ("### Python\n".toList :: templates.map (entryLine .python) ++ [[]]) ++
        (if generalFiles.isEmpty then []
         else "## General\n".toList :: generalFiles.map generalLine ++ [[]]) ∧
    skillListLines
        [⟨"b".toList, "db".toList, "fb".toList⟩,
         ⟨"a".toList, "da".toList, "fa".toList⟩,
         ⟨"c".toList, "dc".toList, "fc".toList⟩] [] =
      ["\n## Available Topics\n".toList,
       "### Typescript\n".toList,
       entryLine .typescript ⟨"b".toList, "db".toList, "fb".toList⟩,
       entryLine .typescript ⟨"a".toList, "da".toList, "fa".toList⟩,
       entryLine .typescript ⟨"c".toList, "dc".toList, "fc".toList⟩,
       [],
       "### Python\n".toList,
       entryLine .python ⟨"b".toList, "db".toList, "fb".toList⟩,
       entryLine .python ⟨"a".toList, "da".toList, "fa".toList⟩,
       entryLine .python ⟨"c".toList, "dc".toList, "fc".toList⟩,
       []] := by
  constructor
  · unfold skillListLines LANGS
    by_cases hg : generalFiles.isEmpty
    · rw [if_pos hg, if_pos hg]
      simp [pushLangSections, pushEntries_eq, capFirst, langName]
    · rw [if_neg hg, if_neg hg]
      simp [pushLangSections, pushEntries_eq, pushGeneral_eq, capFirst, langName]
  · decide

/-- The lazy capture of `^---\n([\s\S]*?)\n---`: the characters before the
first occurrence of a newline followed by three hyphens. -/
def findDelim : List Char → Option (List Char)
  | [] => none
  | c :: t =>
    match stripPre "\n---".toList (c :: t) with
    | some _ => some []
    | none =>
      match findDelim t with
      | some b => some (c :: b)
      | none => none

/-- The frontmatter block captured by `content.match` of the anchored
pattern `^---\n([\s\S]*?)\n---`: the document must begin with the opening
delimiter line, and the lazy capture runs to the first closing delimiter. -/
def extractFM (content : List Char) : Option (List Char) :=
  match stripPre "---\n".toList content with
  | none => none
  | some r => findDelim r

/-- The `\s*(.+)$` tail of the field patterns, with the multiline-flag
semantics of the source: `\s*` greedily crosses whitespace (including
line terminators); `(.+)` then captures at least one non-terminator
character up to the end of the line.  When the greedy run hits the end of
the input the engine backs `\s*` off to the last whitespace character that
is not a line terminator, capturing just that character; with no such
character there is no match. -/
def wsCapture (s : List Char) : Option (List Char) :=
  match s.drop (s.takeWhile isWS).length with
  | c :: cs => some ((c :: cs).takeWhile (fun c => !isLineTerm c))
  | [] =>
    match ((s.takeWhile isWS).filter (fun c => !isLineTerm c)).getLast? with
    | some c => some [c]
    | none => none

/-- One attempt of `/^name:\s*(.+)$/m` (or the `description:` variant) at a
line-start position of the frontmatter. -/
def matchFieldAt (field s : List Char) : Option (List Char) :=
  match stripPre field s with
  | none => none
  | some r => wsCapture r

/-- Advance to the next multiline line-start position (drop through the
first line terminator). -/
def dropLine (s : List Char) : List Char :=
  (s.dropWhile (fun c => !isLineTerm c)).drop 1

theorem dropWhile_length_le (p : Char → Bool) (l : List Char) :
    (l.dropWhile p).length ≤ l.length := by
  induction l with
  | nil => simp [List.dropWhile]
  | cons c t ih =>
    by_cases hc : p c
    · simp only [List.dropWhile, hc]
      simp only [List.length_cons]
      omega
    · have : p c = false := by
        cases hb : p c
        · rfl
        · exact absurd hb hc
      simp [List.dropWhile, this]

theorem dropLine_length_lt (c : Char) (t : List Char) :
    (dropLine (c :: t)).length < (c :: t).length := by
  unfold dropLine
  have h2 : (((c :: t).dropWhile (fun c => !isLineTerm c)).drop 1).length =
      ((c :: t).dropWhile (fun c => !isLineTerm c)).length - 1 := by
    simp [List.length_drop]
  by_cases hc : isLineTerm c
  · simp [List.dropWhile, hc]
  · have hcf : isLineTerm c = false := by
      cases hb : isLineTerm c
      · rfl
      · exact absurd hb hc
    rw [h2]
    have h3 : (c :: t).dropWhile (fun c => !isLineTerm c) =
        t.dropWhile (fun c => !isLineTerm c) := by
      simp [List.dropWhile, hcf]
    rw [h3]
    have h4 := dropWhile_length_le (fun c => !isLineTerm c) t
    simp only [List.length_cons]
    omega

/-- The multiline scan of the field pattern over successive line starts:
the first line-start position with a full match wins. -/
def scanFieldGo (field : List Char) : Nat → List Char → Option (List Char)
  | 0, _ => none
  | _ + 1, [] => none
  | fuel + 1, c :: t =>
    match matchFieldAt field (c :: t) with
    | some v => some v
    | none => scanFieldGo field fuel (dropLine (c :: t))

/-- The scan with its canonical fuel. -/
def scanField (field s : List Char) : Option (List Char) :=
  scanFieldGo field s.length s

/-- `parseFrontmatter` of the build script: no frontmatter block (or an
absent field line) yields the empty string for the field, a matched field
line yields the trimmed capture.  The function is total; no input is an
error. -/
def parseFrontmatter (content : List Char) : List Char × List Char :=
  match extractFM content with
  | none => ([], [])
  | some fm =>
    ((scanField "name:".toList fm).elim [] jsTrim,
     (scanField "description:".toList fm).elim [] jsTrim)

theorem matchFieldAt_nil (field : List Char) : matchFieldAt field [] = none := by
  unfold matchFieldAt
  cases field with
  | nil => simp [stripPre, wsCapture]
  | cons c t => simp [stripPre]

theorem scanFieldGo_fuel_irrel (field : List Char) :
    ∀ f₁ f₂ s, s.length ≤ f₁ → s.length ≤ f₂ →
      scanFieldGo field f₁ s = scanFieldGo field f₂ s := by
  intro f₁
  induction f₁ with
  | zero =>
    intro f₂ s h1 _
    have : s = [] := List.length_eq_zero.mp (Nat.le_zero.mp h1)
    subst this
    cases f₂ <;> simp [scanFieldGo]
  | succ f ih =>
    intro f₂ s h1 h2
    cases s with
    | nil => cases f₂ <;> simp [scanFieldGo]
    | cons c t =>
      cases f₂ with
      | zero => simp at h2
      | succ g =>
        simp only [scanFieldGo]
        cases hm : matchFieldAt field (c :: t) with
        | some v => rfl
        | none =>
          have hlt := dropLine_length_lt c t
          have hd1 : (dropLine (c :: t)).length ≤ f := by
            simp at h1; simp at hlt; omega
          have hd2 : (dropLine (c :: t)).length ≤ g := by
            simp at h2; simp at hlt; omega
          simp only [ih g (dropLine (c :: t)) hd1 hd2]

/-- Step lemma: a hit at the current line start returns its capture. -/
theorem scanField_hit {field s v : List Char} (h : matchFieldAt field s = some v) :
    scanField field s = some v := by
  cases s with
  | nil => rw [matchFieldAt_nil] at h; exact absurd h (by simp)
  | cons c t =>
    unfold scanField
    simp only [List.length_cons, scanFieldGo, h]

/-- Step lemma: a miss advances to the next line start. -/
theorem scanField_miss {field : List Char} {c : Char} {t : List Char}
    (h : matchFieldAt field (c :: t) = none) :
    scanField field (c :: t) = scanField field (dropLine (c :: t)) := by
  unfold scanField
  simp only [List.length_cons, scanFieldGo, h]
  have hlt := dropLine_length_lt c t
  exact scanFieldGo_fuel_irrel field t.length (dropLine (c :: t)).length
    (dropLine (c :: t)) (by simp at hlt; omega) le_rfl

theorem takeWhile_all {p : Char → Bool} {l : List Char} (h : ∀ c ∈ l, p c = true) :
    l.takeWhile p = l := by
  induction l with
  | nil => simp
  | cons c t ih =>
    rw [List.takeWhile_cons, if_pos (h c (by simp))]
    rw [ih (fun c hc => h c (by simp [hc]))]

theorem drop_takeWhile_eq_dropWhile (p : Char → Bool) (l : List Char) :
    l.drop (l.takeWhile p).length = l.dropWhile p := by
  induction l with
  | nil => simp
  | cons c t ih =>
    by_cases hc : p c
    · rw [List.takeWhile_cons, if_pos hc]
      simp only [List.length_cons, List.drop_succ_cons, List.dropWhile_cons, hc]
      simpa using ih
    · have hcf : p c = false := by cases hb : p c; rfl; exact absurd hb hc
      rw [List.takeWhile_cons, if_neg hc]
      simp [List.dropWhile_cons, hcf]

theorem mem_dropWhile {p : Char → Bool} {l : List Char} {c : Char}
    (h : c ∈ l.dropWhile p) : c ∈ l := by
  induction l with
  | nil => simp at h
  | cons x t ih =>
    by_cases hx : p x
    · simp only [List.dropWhile_cons, hx, if_true] at h
      exact List.mem_cons_of_mem x (ih h)
    · have hxf : p x = false := by cases hb : p x; rfl; exact absurd hb hx
      simp only [List.dropWhile_cons, hxf] at h
      simpa using h

theorem dropWhile_struct {p : Char → Bool} {l : List Char} (h : l.dropWhile p ≠ []) :
    ∃ x xs, l.dropWhile p = x :: xs ∧ p x = false := by
  induction l with
  | nil => simp at h
  | cons c t ih =>
    by_cases hc : p c
    · simp only [List.dropWhile_cons, hc, if_true] at h ⊢
      exact ih h
    · have hcf : p c = false := by cases hb : p c; rfl; exact absurd hb hc
      refine ⟨c, t, ?_, hcf⟩
      simp [List.dropWhile_cons, hcf]

theorem dropWhile_idem (p : Char → Bool) (l : List Char) :
    (l.dropWhile p).dropWhile p = l.dropWhile p := by
  by_cases h : l.dropWhile p = []
  · rw [h]; rfl
  · obtain ⟨x, xs, hx, hpx⟩ := dropWhile_struct h
    rw [hx]
    simp [List.dropWhile_cons, hpx]

theorem jsTrim_dropWhile (l : List Char) : jsTrim (l.dropWhile isWS) = jsTrim l := by
  unfold jsTrim
  rw [dropWhile_idem]

/-- `dropWhile` over an append whose left part satisfies the predicate...
inverted: every left character passes, the first right character fails. -/
theorem dropWhile_append_stop {p : Char → Bool} {l : List Char} {x : Char} {r : List Char}
    (hl : ∀ c ∈ l, p c = true) (hx : p x = false) :
    (l ++ x :: r).dropWhile p = x :: r := by
  induction l with
  | nil => simp [List.dropWhile_cons, hx]
  | cons a t ih =>
    have ha : p a = true := hl a (by simp)
    simp only [List.cons_append, List.dropWhile_cons, ha, if_true]
    exact ih (fun c hc => hl c (by simp [hc]))

theorem dropLine_exact {a : List Char} (tail : List Char)
    (h : ∀ c ∈ a, isLineTerm c = false) :
    dropLine (a ++ '\n' :: tail) = tail := by
  unfold dropLine
  rw [dropWhile_append_stop (p := fun c => !isLineTerm c)
    (fun c hc => by simp [h c hc]) (by simp [isLineTerm])]
  simp

theorem findDelim_cons_none {c : Char} {t : List Char}
    (h : stripPre "\n---".toList (c :: t) = none) :
    findDelim (c :: t) = (fun b => c :: b) <$> findDelim t := by
  simp only [findDelim, h]
  cases findDelim t <;> simp

theorem findDelim_skip {a : List Char} (s : List Char) (h : ∀ c ∈ a, c ≠ '\n') :
    findDelim (a ++ s) = (fun b => a ++ b) <$> findDelim s := by
  induction a with
  | nil =>
    simp only [List.nil_append]
    cases hs : findDelim s <;> simp
  | cons c t ih =>
    have hc : c ≠ '\n' := h c (by simp)
    have hstrip : stripPre "\n---".toList (c :: (t ++ s)) = none := by
      simp [stripPre, hc]
    have ih' := ih (fun c hc' => h c (by simp [hc']))
    rw [List.cons_append, findDelim_cons_none hstrip, ih']
    cases findDelim s <;> simp

theorem findDelim_nl_miss {t : List Char} (h : stripPre "---".toList t = none) :
    findDelim ('\n' :: t) = (fun b => '\n' :: b) <$> findDelim t := by
  have hstrip : stripPre "\n---".toList ('\n' :: t) = none := by
    have : stripPre "\n---".toList ('\n' :: t) = stripPre "---".toList t := by
      simp [stripPre]
    rw [this, h]
  simp only [findDelim, hstrip]
  cases findDelim t <;> simp

theorem findDelim_found (r : List Char) :
    findDelim ('\n' :: '-' :: '-' :: '-' :: r) = some [] := by
  have hstrip : stripPre "\n---".toList ('\n' :: '-' :: '-' :: '-' :: r) = some r := by
    have : ('\n' :: '-' :: '-' :: '-' :: r) = "\n---".toList ++ r := rfl
    rw [this, stripPre_append]
  simp only [findDelim, hstrip]

/-- `wsCapture` on a nonempty-core value followed by a newline: the capture
is the value with its leading whitespace consumed by the greedy run. -/
theorem wsCapture_value {v : List Char} (tail : List Char)
    (hnl : ∀ c ∈ v, isLineTerm c = false)
    (hcore : v.dropWhile isWS ≠ []) :
    wsCapture (v ++ '\n' :: tail) = some (v.dropWhile isWS) := by
  obtain ⟨x, xs, hx, hpx⟩ := dropWhile_struct hcore
  have hsplit : v = v.takeWhile isWS ++ (x :: xs) := by
    conv_lhs => rw [← List.takeWhile_append_dropWhile (p := isWS) (l := v)]
    rw [hx]
  have hwsall : ∀ c ∈ v.takeWhile isWS, isWS c = true :=
    fun c hc => List.mem_takeWhile_imp hc
  have htk : (v ++ '\n' :: tail).takeWhile isWS = v.takeWhile isWS := by
    conv_lhs => rw [hsplit]
    rw [List.append_assoc, List.cons_append]
    exact takeWhile_append_stop hwsall hpx
  have hshape : v ++ '\n' :: tail = v.takeWhile isWS ++ (x :: (xs ++ '\n' :: tail)) := by
    conv_lhs => rw [hsplit]
    simp [List.append_assoc]
  have hdrop : (v ++ '\n' :: tail).drop ((v ++ '\n' :: tail).takeWhile isWS).length =
      x :: (xs ++ '\n' :: tail) := by
    rw [htk, hshape]
    exact List.drop_left _ _
  have hmemv : ∀ c ∈ x :: xs, c ∈ v := by
    intro c hc
    rw [hsplit]
    exact List.mem_append_right _ hc
  have hcap : (x :: (xs ++ '\n' :: tail)).takeWhile (fun c => !isLineTerm c) = x :: xs := by
    have := takeWhile_append_stop (p := fun c => !isLineTerm c) (l := x :: xs) (x := '\n')
      (r := tail) (fun c hc => by simp [hnl c (hmemv c hc)]) (by simp [isLineTerm])
    simpa using this
  unfold wsCapture
  rw [hdrop]
  simp only [hcap, hx]

/-- `wsCapture` at the end of the input: with a nonempty core and no line
terminator in the value, the capture runs to the end. -/
theorem wsCapture_value_eos {v : List Char}
    (hnl : ∀ c ∈ v, isLineTerm c = false)
    (hcore : v.dropWhile isWS ≠ []) :
    wsCapture v = some (v.dropWhile isWS) := by
  obtain ⟨x, xs, hx, hpx⟩ := dropWhile_struct hcore
  have hdrop : v.drop (v.takeWhile isWS).length = x :: xs := by
    rw [drop_takeWhile_eq_dropWhile, hx]
  unfold wsCapture
  rw [hdrop]
  have hmemv : ∀ c ∈ x :: xs, c ∈ v := by
    intro c hc
    rw [← hx] at hc
    exact mem_dropWhile hc
  have hcap : (x :: xs).takeWhile (fun c => !isLineTerm c) = x :: xs :=
    takeWhile_all (fun c hc => by simp [hnl c (hmemv c hc)])
  simp only [hcap, hx]

theorem matchFieldAt_exact {field v : List Char} (tail : List Char)
    (hnl : ∀ c ∈ v, isLineTerm c = false) (hcore : v.dropWhile isWS ≠ []) :
    matchFieldAt field (field ++ (v ++ '\n' :: tail)) = some (v.dropWhile isWS) := by
  unfold matchFieldAt
  rw [stripPre_append]
  exact wsCapture_value tail hnl hcore

theorem matchFieldAt_eos {field v : List Char}
    (hnl : ∀ c ∈ v, isLineTerm c = false) (hcore : v.dropWhile isWS ≠ []) :
    matchFieldAt field (field ++ v) = some (v.dropWhile isWS) := by
  unfold matchFieldAt
  rw [stripPre_append]
  exact wsCapture_value_eos hnl hcore

theorem scanField_miss' {field s : List Char} (hs : s ≠ [])
    (h : matchFieldAt field s = none) :
    scanField field s = scanField field (dropLine s) := by
  cases s with
  | nil => exact absurd rfl hs
  | cons c t => exact scanField_miss h

theorem all_not_lineTerm {l : List Char} (h : l.all (fun c => !isLineTerm c) = true) :
    ∀ c ∈ l, isLineTerm c = false := by
  intro c hc
  have := List.all_eq_true.mp h c hc
  simpa using this

theorem ne_nl_of_not_lineTerm {c : Char} (h : isLineTerm c = false) : c ≠ '\n' := by
  intro hc
  subst hc
  simp [isLineTerm] at h

/-- Claim C7: frontmatter parsing.  First conjunct: a document of the form
`---`, a `name:` line, a `description:` line, a closing `---`, yields the
trimmed remainders of the two field lines (the field values may carry
leading or trailing blanks but contain a non-whitespace character and no
line terminator).  Second conjunct: a document that does not begin with
the opening delimiter line yields the empty string for both fields.
Third and fourth conjuncts: when the frontmatter block is present but a
field line is absent (its scan misses), that field resolves to the empty
string.  No input raises an error: `parseFrontmatter` is total. -/
theorem c7_frontmatter_contract :
    (∀ nv dv rest : List Char,
      (∀ c ∈ nv, isLineTerm c = false) → (∀ c ∈ dv, isLineTerm c = false) →
      nv.dropWhile isWS ≠ [] → dv.dropWhile isWS ≠ [] →
      parseFrontmatter ("---\n".toList ++
          ("name:".toList ++ nv ++ '\n' ::
            ("description:".toList ++ dv ++ '\n' :: ("---".toList ++ rest)))) =
        (jsTrim nv, jsTrim dv)) ∧
    (∀ content : List Char, stripPre "---\n".toList content = none →
      parseFrontmatter content = ([], [])) ∧
    (∀ content fm : List Char, extractFM content = some fm →
      scanField "name:".toList fm = none → (parseFrontmatter content).1 = []) ∧
    (∀ content fm : List Char, extractFM content = some fm →
      scanField "description:".toList fm = none → (parseFrontmatter content).2 = []) := by
  refine ⟨?_, ?_, ?_, ?_⟩
  · intro nv dv rest hnlt hdlt hncore hdcore
    have hAlt : ∀ c ∈ "name:".toList ++ nv, isLineTerm c = false := by
      intro c hc
      rcases List.mem_append.mp hc with hc | hc
      · exact all_not_lineTerm (by decide) c hc
      · exact hnlt c hc
    have hAnl : ∀ c ∈ "name:".toList ++ nv, c ≠ '\n' :=
      fun c hc => ne_nl_of_not_lineTerm (hAlt c hc)
    have hBnl : ∀ c ∈ "description:".toList ++ dv, c ≠ '\n' := by
      intro c hc
      rcases List.mem_append.mp hc with hc | hc
      · exact ne_nl_of_not_lineTerm (all_not_lineTerm (by decide) c hc)
      · exact ne_nl_of_not_lineTerm (hdlt c hc)
    have hBrest : "---".toList ++ rest = '-' :: '-' :: '-' :: rest := rfl
    have hstrip1 : stripPre "---\n".toList ("---\n".toList ++
        ("name:".toList ++ nv ++ '\n' ::
          ("description:".toList ++ dv ++ '\n' :: ("---".toList ++ rest)))) =
        some ("name:".toList ++ nv ++ '\n' ::
          ("description:".toList ++ dv ++ '\n' :: ("---".toList ++ rest))) :=
      stripPre_append _ _
    have hfm : extractFM ("---\n".toList ++
        ("name:".toList ++ nv ++ '\n' ::
          ("description:".toList ++ dv ++ '\n' :: ("---".toList ++ rest)))) =
        some (("name:".toList ++ nv) ++ '\n' :: ("description:".toList ++ dv)) := by
      simp only [extractFM, hstrip1]
      rw [hBrest]
      rw [findDelim_skip _ hAnl]
      rw [findDelim_nl_miss (by rfl)]
      rw [findDelim_skip _ hBnl]
      rw [findDelim_found]
      simp
    have hname : scanField "name:".toList
        (("name:".toList ++ nv) ++ '\n' :: ("description:".toList ++ dv)) =
        some (nv.dropWhile isWS) := by
      rw [List.append_assoc]
      exact scanField_hit (matchFieldAt_exact _ hnlt hncore)
    have hdescmiss : matchFieldAt "description:".toList
        (("name:".toList ++ nv) ++ '\n' :: ("description:".toList ++ dv)) = none := rfl
    have hdesc : scanField "description:".toList
        (("name:".toList ++ nv) ++ '\n' :: ("description:".toList ++ dv)) =
        some (dv.dropWhile isWS) := by
      rw [scanField_miss' (by simp) hdescmiss]
      rw [dropLine_exact _ hAlt]
      exact scanField_hit (matchFieldAt_eos hdlt hdcore)
    simp only [parseFrontmatter, hfm, hname, hdesc, Option.elim]
    rw [jsTrim_dropWhile, jsTrim_dropWhile]
  · intro content h
    simp only [parseFrontmatter, extractFM, h]
  · intro content fm hfm hmiss
    simp only [parseFrontmatter, hfm, hmiss, Option.elim]
  · intro content fm hfm hmiss
    simp only [parseFrontmatter, hfm, hmiss, Option.elim]

theorem c7_frontmatter_contract_witness :
    parseFrontmatter "---\nname: Foo\ndescription: Bar baz\n---\nbody".toList =
      ("Foo".toList, "Bar baz".toList) ∧
    parseFrontmatter "plain document".toList = ([], []) ∧
    parseFrontmatter "---\ntitle: x\n---\n".toList = ([], []) := by
  refine ⟨?_, ?_, ?_⟩
  · have h := c7_frontmatter_contract.1 " Foo".toList " Bar baz".toList "\nbody".toList
      (by decide) (by decide) (by decide) (by decide)
    have hdoc : "---\nname: Foo\ndescription: Bar baz\n---\nbody".toList =
        "---\n".toList ++
          ("name:".toList ++ " Foo".toList ++ '\n' ::
            ("description:".toList ++ " Bar baz".toList ++ '\n' ::
              ("---".toList ++ "\nbody".toList))) := by decide
    rw [hdoc, h]
    decide
  · exact c7_frontmatter_contract.2.1 "plain document".toList (by decide)
  · have h1 := c7_frontmatter_contract.2.2.1 "---\ntitle: x\n---\n".toList
      "title: x".toList (by decide) (by decide)
    have h2 := c7_frontmatter_contract.2.2.2 "---\ntitle: x\n---\n".toList
      "title: x".toList (by decide) (by decide)
    have hpair : parseFrontmatter "---\ntitle: x\n---\n".toList =
        ((parseFrontmatter "---\ntitle: x\n---\n".toList).1,
         (parseFrontmatter "---\ntitle: x\n---\n".toList).2) := rfl
    rw [hpair, h1, h2]

/-- One attempt of the end-marker tail `\s*(?:\/\/|#)\s*@end` of the
snippet pattern, applied just after a newline.  The greedy `\s*` runs
cannot usefully backtrack: each run is followed by a token starting with a
non-whitespace character, so only the maximal run can be followed by a
match.  The `//` alternative is tried first; when it matches, the `#`
alternative could only start with the same character and cannot succeed
instead, so the translation commits to `//`. -/
def matchEndTail (s : List Char) : Option (List Char) :=
  match stripPre "//".toList (s.dropWhile isWS) with
  | some t2 => stripPre "@end".toList (t2.dropWhile isWS)
  | none =>
    match stripPre "#".toList (s.dropWhile isWS) with
    | some t2 => stripPre "@end".toList (t2.dropWhile isWS)
    | none => none

/-- The lazy body `([\s\S]*?)` followed by `\n` and the end tail: scan for
the earliest newline whose following text matches the end tail; the body
is everything before it, the returned remainder everything after the
matched `@end`. -/
def findEnd : List Char → Option (List Char × List Char)
  | [] => none
  | c :: t =>
    if c = '\n' then
      match matchEndTail t with
      | some rest => some ([], rest)
      | none =>
        match findEnd t with
        | some (b, r) => some (c :: b, r)
        | none => none
    else
      match findEnd t with
      | some (b, r) => some (c :: b, r)
      | none => none

/-- The suffixes of a list that follow each of its newlines, ordered from
the last newline to the first: the candidate body starts produced by
backtracking the greedy `\s*` of `\s*\n` from its longest run downwards. -/
def nlSuffixes : List Char → List (List Char)
  | [] => []
  | c :: t => nlSuffixes t ++ (if c = '\n' then [t] else [])

/-- Try each candidate body start in backtracking order. -/
def tryEnds : List (List Char) → List Char → Option (List Char × List Char)
  | [], _ => none
  | cand :: cs, r3 =>
    match findEnd (cand ++ r3) with
    | some br => some br
    | none => tryEnds cs r3

/-- One match attempt of `@snippet:(\S+)\s*\n([\s\S]*?)\n\s*(?:\/\/|#)\s*@end`
at the head of the input.  The name is the maximal nonempty run of
non-whitespace characters (a shorter run would force `\s*\n` to match a
non-whitespace character, so `\S+` cannot usefully backtrack); the
whitespace run after it must contain a newline, and the greedy `\s*`
backtracks over the newline positions from the last to the first; the
first candidate whose lazy body finds an end tail wins. -/
def tryMatchAt (s : List Char) : Option (List Char × List Char × List Char) :=
  match stripPre "@snippet:".toList s with
  | none => none
  | some r1 =>
    let nm := r1.takeWhile (fun c => !isWS c)
    if nm.isEmpty then none
    else
      let r2 := r1.drop nm.length
      let ws := r2.takeWhile isWS
      match tryEnds (nlSuffixes ws) (r2.drop ws.length) with
      | some (body, rest) => some (nm, body, rest)
      | none => none

theorem matchEndTail_le {s r : List Char} (h : matchEndTail s = some r) :
    r.length ≤ s.length := by
  unfold matchEndTail at h
  cases h1 : stripPre "//".toList (s.dropWhile isWS) with
  | some t2 =>
    rw [h1] at h
    simp only at h
    have l1 := stripPre_length h1
    have l2 := stripPre_length h
    have l3 := dropWhile_length_le isWS s
    have l4 := dropWhile_length_le isWS t2
    simp at l1 l2
    omega
  | none =>
    rw [h1] at h
    simp only at h
    cases h2 : stripPre "#".toList (s.dropWhile isWS) with
    | some t2 =>
      rw [h2] at h
      simp only at h
      have l1 := stripPre_length h2
      have l2 := stripPre_length h
      have l3 := dropWhile_length_le isWS s
      have l4 := dropWhile_length_le isWS t2
      simp at l1 l2
      omega
    | none => rw [h2] at h; exact absurd h (by simp)

theorem findEnd_length {x : List Char} {b r : List Char}
    (h : findEnd x = some (b, r)) : r.length < x.length := by
  induction x generalizing b with
  | nil => simp [findEnd] at h
  | cons c t ih =>
    unfold findEnd at h
    by_cases hc : c = '\n'
    · rw [if_pos hc] at h
      cases hm : matchEndTail t with
      | some rest =>
        rw [hm] at h
        simp only [Option.some.injEq, Prod.mk.injEq] at h
        obtain ⟨_, hr⟩ := h
        subst hr
        have := matchEndTail_le hm
        simp only [List.length_cons]
        omega
      | none =>
        rw [hm] at h
        cases hf : findEnd t with
        | some br =>
          obtain ⟨b', r'⟩ := br
          rw [hf] at h
          simp only [Option.some.injEq, Prod.mk.injEq] at h
          obtain ⟨_, hr⟩ := h
          subst hr
          have := ih hf
          simp only [List.length_cons]
          omega
        | none => rw [hf] at h; exact absurd h (by simp)
    · rw [if_neg hc] at h
      cases hf : findEnd t with
      | some br =>
        obtain ⟨b', r'⟩ := br
        rw [hf] at h
        simp only [Option.some.injEq, Prod.mk.injEq] at h
        obtain ⟨_, hr⟩ := h
        subst hr
        have := ih hf
        simp only [List.length_cons]
        omega
      | none => rw [hf] at h; exact absurd h (by simp)

theorem nlSuffixes_length {l : List Char} : ∀ c ∈ nlSuffixes l, c.length < l.length := by
  induction l with
  | nil => simp [nlSuffixes]
  | cons a t ih =>
    intro c hc
    unfold nlSuffixes at hc
    rcases List.mem_append.mp hc with hc | hc
    · have := ih c hc
      simp only [List.length_cons]
      omega
    · by_cases ha : a = '\n'
      · rw [if_pos ha] at hc
        simp at hc
        subst hc
        simp
      · rw [if_neg ha] at hc
        simp at hc

theorem tryEnds_spec {cands : List (List Char)} {r3 b r : List Char}
    (h : tryEnds cands r3 = some (b, r)) :
    ∃ cand ∈ cands, findEnd (cand ++ r3) = some (b, r) := by
  induction cands with
  | nil => simp [tryEnds] at h
  | cons cand cs ih =>
    unfold tryEnds at h
    cases hf : findEnd (cand ++ r3) with
    | some br =>
      rw [hf] at h
      simp only [Option.some.injEq] at h
      subst h
      exact ⟨cand, by simp, hf⟩
    | none =>
      rw [hf] at h
      obtain ⟨cand', hmem, hfind⟩ := ih h
      exact ⟨cand', by simp [hmem], hfind⟩

theorem tryMatchAt_length {s : List Char} {nm body rest : List Char}
    (h : tryMatchAt s = some (nm, body, rest)) : rest.length < s.length := by
  unfold tryMatchAt at h
  cases hp : stripPre "@snippet:".toList s with
  | none => rw [hp] at h; exact absurd h (by simp)
  | some r1 =>
    rw [hp] at h
    simp only at h
    set nm' := r1.takeWhile (fun c => !isWS c) with hnm
    by_cases he : nm'.isEmpty
    · rw [if_pos he] at h; exact absurd h (by simp)
    · rw [if_neg he] at h
      set r2 := r1.drop nm'.length with hr2
      set ws := r2.takeWhile isWS with hws
      cases ht : tryEnds (nlSuffixes ws) (r2.drop ws.length) with
      | none => rw [ht] at h; exact absurd h (by simp)
      | some br =>
        obtain ⟨body', rest'⟩ := br
        rw [ht] at h
        simp only [Option.some.injEq, Prod.mk.injEq] at h
        obtain ⟨_, _, hrest⟩ := h
        subst hrest
        obtain ⟨cand, hmem, hfind⟩ := tryEnds_spec ht
        have h1 := findEnd_length hfind
        have h2 := nlSuffixes_length cand hmem
        have h3 : (r2.drop ws.length).length = r2.length - ws.length := by
          simp [List.length_drop]
        have h4 : r2.length ≤ r1.length := by rw [hr2]; simp
        have h5 : r1.length + 9 = s.length := by
          have := stripPre_length hp
          simpa using this
        have h6 : ws.length ≤ r2.length := by
          rw [hws]
          have h7 := dropWhile_length_le isWS r2
          have h8 := congrArg List.length
            (List.takeWhile_append_dropWhile (p := isWS) (l := r2))
          rw [List.length_append] at h8
          omega
        rw [List.length_append] at h1
        omega

/-- The `while ((match = regex.exec(content)) !== null)` loop of
`parseSnippets`: successive non-overlapping leftmost matches; a failed
attempt advances one position, a successful one resumes after the match.
Each match's captured body is stored trimmed.  Fuel is the input length,
always sufficient by `tryMatchAt_length`. -/
def scanGo : Nat → List Char → List (List Char × List Char)
  | 0, _ => []
  | _ + 1, [] => []
  | fuel + 1, c :: t =>
    match tryMatchAt (c :: t) with
    | some (nm, body, rest) => (nm, jsTrim body) :: scanGo fuel rest
    | none => scanGo fuel t

/-- The snippet-region scan with its canonical fuel. -/
def scanSnippets (s : List Char) : List (List Char × List Char) :=
  scanGo s.length s

/-- `parseSnippets` of the build script: fold the scanned regions into a
JavaScript map with `set`, so a later duplicate name overwrites the
earlier body. -/
def parseSnippets (content : List Char) : SMap :=
  (scanSnippets content).foldl (fun m p => mapSet m p.1 p.2) []

theorem scanGo_fuel_irrel :
    ∀ f₁ f₂ s, s.length ≤ f₁ → s.length ≤ f₂ → scanGo f₁ s = scanGo f₂ s := by
  intro f₁
  induction f₁ with
  | zero =>
    intro f₂ s h1 _
    have : s = [] := List.length_eq_zero.mp (Nat.le_zero.mp h1)
    subst this
    cases f₂ <;> simp [scanGo]
  | succ f ih =>
    intro f₂ s h1 h2
    cases s with
    | nil => cases f₂ <;> simp [scanGo]
    | cons c t =>
      cases f₂ with
      | zero => simp at h2
      | succ g =>
        simp only [scanGo]
        cases hp : tryMatchAt (c :: t) with
        | none =>
          have ht : t.length ≤ f := by simp at h1; omega
          have ht2 : t.length ≤ g := by simp at h2; omega
          simp only [ih g t ht ht2]
        | some pr =>
          obtain ⟨nm, body, rest⟩ := pr
          have hl := tryMatchAt_length hp
          have hr1 : rest.length ≤ f := by simp at h1 hl; omega
          have hr2 : rest.length ≤ g := by simp at h2 hl; omega
          simp only [ih g rest hr1 hr2]

/-- Step lemma: no region match at this position. -/
theorem scanSnippets_skip {c : Char} {t : List Char}
    (h : tryMatchAt (c :: t) = none) : scanSnippets (c :: t) = scanSnippets t := by
  unfold scanSnippets
  simp only [List.length_cons, scanGo, h]

/-- Step lemma: a region match emits its trimmed body and resumes after
the match. -/
theorem scanSnippets_match {s nm body rest : List Char}
    (h : tryMatchAt s = some (nm, body, rest)) :
    scanSnippets s = (nm, jsTrim body) :: scanSnippets rest := by
  unfold scanSnippets
  cases s with
  | nil => simp [tryMatchAt, stripPre] at h
  | cons c t =>
    have hl := tryMatchAt_length h
    simp only [List.length_cons, scanGo, h]
    rw [scanGo_fuel_irrel t.length rest.length rest (by simp at hl; omega) le_rfl]

theorem takeWhile_append_all {p : Char → Bool} {a : List Char} (b : List Char)
    (h : ∀ c ∈ a, p c = true) : (a ++ b).takeWhile p = a ++ b.takeWhile p := by
  induction a with
  | nil => simp
  | cons c t ih =>
    rw [List.cons_append, List.takeWhile_cons, if_pos (h c (by simp))]
    rw [ih (fun c hc => h c (by simp [hc]))]
    simp

theorem dropWhile_append_all {p : Char → Bool} {a : List Char} (b : List Char)
    (h : ∀ c ∈ a, p c = true) : (a ++ b).dropWhile p = b.dropWhile p := by
  induction a with
  | nil => simp
  | cons c t ih =>
    rw [List.cons_append, List.dropWhile_cons]
    rw [if_pos (h c (by simp))]
    exact ih (fun c hc => h c (by simp [hc]))

theorem ws_not_comment {c : Char} (h : isWS c = true) : c ≠ '/' ∧ c ≠ '#' := by
  unfold isWS at h
  rcases Bool.or_eq_true_iff.mp h with h1 | h1
  · rcases Bool.or_eq_true_iff.mp h1 with h2 | h2
    · rcases Bool.or_eq_true_iff.mp h2 with h3 | h3
      · constructor <;> (intro he; subst he; simp at h3)
      · constructor <;> (intro he; subst he; simp at h3)
    · constructor <;> (intro he; subst he; simp at h2)
  · constructor <;> (intro he; subst he; simp at h1)

/-- The end tail matches the rendered end marker, leaving whatever follows
the token `@end`. -/
theorem matchEndTail_marker (tail : List Char) :
    matchEndTail ("// @end".toList ++ tail) = some tail := by
  unfold matchEndTail
  have h1 : ("// @end".toList ++ tail).dropWhile isWS = "// @end".toList ++ tail := by
    rfl
  rw [h1]
  have h2 : stripPre "//".toList ("// @end".toList ++ tail) = some (" @end".toList ++ tail) := by
    have : "// @end".toList ++ tail = "//".toList ++ (" @end".toList ++ tail) := rfl
    rw [this, stripPre_append]
  rw [h2]
  have h3 : (" @end".toList ++ tail).dropWhile isWS = "@end".toList ++ tail := rfl
  simp only [h3]
  rw [stripPre_append]

/-- The end tail fails on any text whose whitespace run is followed by a
character other than a comment-opener, regardless of what comes after. -/
theorem matchEndTail_fail_of_body {v : List Char} (t : List Char)
    (hne : v.dropWhile isWS ≠ [])
    (hchars : ∀ c ∈ v, c ≠ '/' ∧ c ≠ '#') :
    matchEndTail (v ++ t) = none := by
  obtain ⟨x, xs, hx, hpx⟩ := dropWhile_struct hne
  have hsplit : v = v.takeWhile isWS ++ (x :: xs) := by
    conv_lhs => rw [← List.takeWhile_append_dropWhile (p := isWS) (l := v)]
    rw [hx]
  have hwsall : ∀ c ∈ v.takeWhile isWS, isWS c = true :=
    fun c hc => List.mem_takeWhile_imp hc
  have hdrop : (v ++ t).dropWhile isWS = x :: (xs ++ t) := by
    conv_lhs => rw [hsplit]
    rw [List.append_assoc, List.cons_append]
    rw [dropWhile_append_all _ hwsall]
    simp [List.dropWhile_cons, hpx]
  have hxv : x ∈ v := by
    rw [hsplit]; exact List.mem_append_right _ (by simp)
  have hxslash : x ≠ '/' := (hchars x hxv).1
  have hxhash : x ≠ '#' := (hchars x hxv).2
  unfold matchEndTail
  rw [hdrop]
  have h1 : stripPre "//".toList (x :: (xs ++ t)) = none := by
    simp [stripPre, hxslash]
  have h2 : stripPre "#".toList (x :: (xs ++ t)) = none := by
    simp [stripPre, hxhash]
  rw [h1, h2]

theorem findEnd_cons_hit {t rest : List Char} (h : matchEndTail t = some rest) :
    findEnd ('\n' :: t) = some ([], rest) := by
  simp only [findEnd]
  simp [h]

theorem findEnd_cons_step_nl {t : List Char} (h : matchEndTail t = none) :
    findEnd ('\n' :: t) =
      match findEnd t with
      | some (b, r) => some ('\n' :: b, r)
      | none => none := by
  simp only [findEnd]
  simp [h]

theorem findEnd_cons_step {c : Char} {t : List Char} (hc : c ≠ '\n') :
    findEnd (c :: t) =
      match findEnd t with
      | some (b, r) => some (c :: b, r)
      | none => none := by
  simp only [findEnd]
  simp [hc]

/-- `findEnd` on a body followed by the rendered end marker: the lazy scan
passes over every interior newline (each is followed by a non-whitespace,
non-comment character before the marker) and stops exactly at the marker. -/
theorem findEnd_exact {cap : List Char} (tail : List Char)
    (hchars : ∀ c ∈ cap, c ≠ '/' ∧ c ≠ '#')
    (hnb : ∀ u v, cap = u ++ '\n' :: v → v.dropWhile isWS ≠ []) :
    findEnd (cap ++ '\n' :: ("// @end".toList ++ tail)) = some (cap, tail) := by
  induction cap with
  | nil =>
    rw [List.nil_append]
    exact findEnd_cons_hit (matchEndTail_marker tail)
  | cons c cs ih =>
    rw [List.cons_append]
    by_cases hc : c = '\n'
    · subst hc
      have hcs : cs.dropWhile isWS ≠ [] := hnb [] cs rfl
      have hfail : matchEndTail (cs ++ '\n' :: ("// @end".toList ++ tail)) = none := by
        have := matchEndTail_fail_of_body ('\n' :: ("// @end".toList ++ tail)) hcs
          (fun c hc => hchars c (by simp [hc]))
        simpa using this
      have hih := ih (fun c hc => hchars c (by simp [hc]))
        (fun u v huv => hnb ('\n' :: u) v (by rw [huv]; rfl))
      rw [findEnd_cons_step_nl hfail, hih]
    · have hih := ih (fun c hc => hchars c (by simp [hc]))
        (fun u v huv => hnb (c :: u) v (by rw [huv]; rfl))
      rw [findEnd_cons_step hc, hih]

theorem nlSuffixes_nil_no_nl {l : List Char} (h : nlSuffixes l = []) : '\n' ∉ l := by
  induction l with
  | nil => simp
  | cons c t ih =>
    unfold nlSuffixes at h
    rcases List.append_eq_nil.mp h with ⟨h1, h2⟩
    intro hm
    rcases List.mem_cons.mp hm with hm | hm
    · rw [← hm] at h2; simp at h2
    · exact ih h1 hm

theorem nlSuffixes_head_spec {l w0 : List Char} {cs : List (List Char)}
    (h : nlSuffixes l = w0 :: cs) : '\n' ∉ w0 ∧ ∃ u, l = u ++ '\n' :: w0 := by
  induction l generalizing cs with
  | nil => simp [nlSuffixes] at h
  | cons c t ih =>
    unfold nlSuffixes at h
    cases hnt : nlSuffixes t with
    | cons a b =>
      rw [hnt, List.cons_append] at h
      have ha : a = w0 := by
        have := h
        simp at this
        exact this.1
      subst ha
      obtain ⟨hnl, u, hu⟩ := ih hnt
      exact ⟨hnl, c :: u, by rw [List.cons_append, ← hu]⟩
    | nil =>
      rw [hnt, List.nil_append] at h
      by_cases hc : c = '\n'
      · rw [if_pos hc] at h
        have ht : t = w0 := by
          have := h
          simp at this
          exact this.1
        subst ht
        exact ⟨nlSuffixes_nil_no_nl hnt, [], by rw [List.nil_append, hc]⟩
      · rw [if_neg hc] at h
        simp at h

theorem split_through {wb core u v : List Char} (hwb : '\n' ∉ wb)
    (h : wb ++ core = u ++ '\n' :: v) : ∃ u2, core = u2 ++ '\n' :: v := by
  rcases List.append_eq_append_iff.mp h with ⟨a', _, ha2⟩ | ⟨c', hc1, hc2⟩
  · exact ⟨a', ha2⟩
  · cases c' with
    | nil =>
      refine ⟨[], ?_⟩
      rw [List.nil_append] at hc2 ⊢
      exact hc2.symm
    | cons h0 t0 =>
      rw [List.cons_append] at hc2
      have h0nl : h0 = '\n' := by
        have := hc2
        simp at this
        exact this.1.symm
      exfalso
      apply hwb
      rw [hc1, h0nl]
      exact List.mem_append_right _ (by simp)

/-- A body whose trailing whitespace run contains no newline has a
non-whitespace character after every one of its newlines. -/
theorem noBlankNl_of_trailing {body : List Char} (htr : '\n' ∉ trailingWS body)
    {u v : List Char} (h : body = u ++ '\n' :: v) : v.dropWhile isWS ≠ [] := by
  intro hv
  have hvall : ∀ c ∈ v, isWS c = true := by
    intro c hc
    have := List.dropWhile_eq_nil_iff.mp hv
    simpa using this c hc
  apply htr
  unfold trailingWS
  rw [h]
  have hrev : (u ++ '\n' :: v).reverse = v.reverse ++ '\n' :: u.reverse := by
    simp
  rw [hrev]
  rw [takeWhile_append_all _ (fun c hc => hvall c (by simpa using hc))]
  rw [List.takeWhile_cons, if_pos (by simp [isWS])]
  exact List.mem_append_right _ (by simp)

/-- One region match of the snippet pattern against rendered region text:
the name is captured, the body capture trims to the rendered body, and the
scan resumes exactly after the end marker's `@end` token. -/
theorem tryMatchAt_region {nm body : List Char} (tail : List Char)
    (hnm : nm ≠ []) (hnmws : ∀ c ∈ nm, isWS c = false)
    (hcore : body.dropWhile isWS ≠ [])
    (hchars : ∀ c ∈ body, c ≠ '/' ∧ c ≠ '#')
    (htrail : '\n' ∉ trailingWS body) :
    ∃ cap,
      tryMatchAt ("@snippet:".toList ++
          (nm ++ '\n' :: (body ++ '\n' :: ("// @end".toList ++ tail)))) =
        some (nm, cap, tail) ∧
      jsTrim cap = jsTrim body := by
  obtain ⟨x, xs, hx, hpx⟩ := dropWhile_struct hcore
  have hbody_split : body = body.takeWhile isWS ++ (x :: xs) := by
    conv_lhs => rw [← List.takeWhile_append_dropWhile (p := isWS) (l := body)]
    rw [hx]
  have hws_all : ∀ c ∈ body.takeWhile isWS, isWS c = true :=
    fun c hc => List.mem_takeWhile_imp hc
  have h1 : stripPre "@snippet:".toList ("@snippet:".toList ++
      (nm ++ '\n' :: (body ++ '\n' :: ("// @end".toList ++ tail)))) =
      some (nm ++ '\n' :: (body ++ '\n' :: ("// @end".toList ++ tail))) :=
    stripPre_append _ _
  have hnmtk : (nm ++ '\n' :: (body ++ '\n' :: ("// @end".toList ++ tail))).takeWhile
      (fun c => !isWS c) = nm :=
    takeWhile_append_stop (fun c hc => by simp [hnmws c hc]) (by simp [isWS])
  have hne : ¬ nm.isEmpty = true := by simpa [List.isEmpty_iff] using hnm
  have hr2 : (nm ++ '\n' :: (body ++ '\n' :: ("// @end".toList ++ tail))).drop nm.length =
      '\n' :: (body ++ '\n' :: ("// @end".toList ++ tail)) :=
    List.drop_left _ _
  have hws : ('\n' :: (body ++ '\n' :: ("// @end".toList ++ tail))).takeWhile isWS =
      '\n' :: body.takeWhile isWS := by
    rw [List.takeWhile_cons, if_pos (by simp [isWS])]
    congr 1
    conv_lhs => rw [hbody_split]
    rw [List.append_assoc, List.cons_append]
    exact takeWhile_append_stop hws_all hpx
  have hshape2 : body ++ '\n' :: ("// @end".toList ++ tail) =
      body.takeWhile isWS ++ ((x :: xs) ++ '\n' :: ("// @end".toList ++ tail)) := by
    conv_lhs => rw [hbody_split]
    rw [List.append_assoc]
  have hr3 : ('\n' :: (body ++ '\n' :: ("// @end".toList ++ tail))).drop
      ('\n' :: body.takeWhile isWS).length =
      (x :: xs) ++ '\n' :: ("// @end".toList ++ tail) := by
    simp only [List.length_cons, List.drop_succ_cons]
    rw [hshape2]
    exact List.drop_left _ _
  obtain ⟨w0, cs, hw0⟩ : ∃ w0 cs, nlSuffixes ('\n' :: body.takeWhile isWS) = w0 :: cs := by
    have hcand : nlSuffixes ('\n' :: body.takeWhile isWS) =
        nlSuffixes (body.takeWhile isWS) ++ [body.takeWhile isWS] := by
      simp [nlSuffixes]
    rw [hcand]
    cases nlSuffixes (body.takeWhile isWS) with
    | nil => exact ⟨body.takeWhile isWS, [], rfl⟩
    | cons a b => exact ⟨a, b ++ [body.takeWhile isWS], rfl⟩
  obtain ⟨hw0nl, u0, hu0⟩ := nlSuffixes_head_spec hw0
  have hw0ws : ∀ c ∈ w0, isWS c = true := by
    intro c hc
    have hcmem : c ∈ '\n' :: body.takeWhile isWS := by
      rw [hu0]
      exact List.mem_append_right _ (by simp [hc])
    rcases List.mem_cons.mp hcmem with hc2 | hc2
    · rw [hc2]; simp [isWS]
    · exact hws_all c hc2
  have hfe : findEnd (w0 ++ ((x :: xs) ++ '\n' :: ("// @end".toList ++ tail))) =
      some (w0 ++ (x :: xs), tail) := by
    have hassoc : w0 ++ ((x :: xs) ++ '\n' :: ("// @end".toList ++ tail)) =
        (w0 ++ (x :: xs)) ++ '\n' :: ("// @end".toList ++ tail) := by
      rw [List.append_assoc]
    rw [hassoc]
    apply findEnd_exact
    · intro c hc
      rcases List.mem_append.mp hc with hc | hc
      · exact ws_not_comment (hw0ws c hc)
      · have : c ∈ body := by
          rw [hbody_split]; exact List.mem_append_right _ hc
        exact hchars c this
    · intro u v huv
      obtain ⟨u2, hu2⟩ := split_through hw0nl huv
      have hbodyeq : body = (body.takeWhile isWS ++ u2) ++ '\n' :: v := by
        conv_lhs => rw [hbody_split]
        rw [hu2, List.append_assoc]
      exact noBlankNl_of_trailing htrail hbodyeq
  have hte : tryEnds (nlSuffixes ('\n' :: body.takeWhile isWS))
      ((x :: xs) ++ '\n' :: ("// @end".toList ++ tail)) =
      some (w0 ++ (x :: xs), tail) := by
    rw [hw0]
    unfold tryEnds
    rw [hfe]
  refine ⟨w0 ++ (x :: xs), ?_, ?_⟩
  · simp only [tryMatchAt, h1, hnmtk, hne, hr2, hws, hr3, hte]
    simp
  · have hd1 : (w0 ++ (x :: xs)).dropWhile isWS = x :: xs := by
      rw [dropWhile_append_all _ hw0ws]
      simp [List.dropWhile_cons, hpx]
    unfold jsTrim
    rw [hd1, hx]

/-- A named marker-delimited region of a snippet source file. -/
structure Region where
  rname : List Char
  rbody : List Char
deriving DecidableEq

/-- The rendered text of one region: a comment-prefixed start marker line,
the body, a comment-prefixed end marker line. -/
def renderRegion (r : Region) : List Char :=
  "// @snippet:".toList ++ r.rname ++ '\n' :: r.rbody ++ '\n' :: "// @end\n".toList

/-- A snippet file made of consecutive rendered regions. -/
def renderFile : List Region → List Char
  | [] => []
  | r :: rs => renderRegion r ++ renderFile rs

/-- Well-formedness of a region for the round-trip statements: a nonempty
whitespace-free name; a body with at least one non-whitespace character,
free of comment-opener characters (so no line of it can look like an end
marker), and with no newline inside its trailing whitespace run (no
trailing blank line). -/
def wfRegion (r : Region) : Prop :=
  r.rname ≠ [] ∧ (∀ c ∈ r.rname, isWS c = false) ∧
  r.rbody.dropWhile isWS ≠ [] ∧
  (∀ c ∈ r.rbody, c ≠ '/' ∧ c ≠ '#') ∧
  '\n' ∉ trailingWS r.rbody

instance (r : Region) : Decidable (wfRegion r) := by
  unfold wfRegion
  infer_instance

theorem tryMatchAt_nonat {c : Char} {t : List Char} (h : c ≠ '@') :
    tryMatchAt (c :: t) = none := by
  unfold tryMatchAt
  have hs : stripPre "@snippet:".toList (c :: t) = none := by
    simp [stripPre, h]
  rw [hs]

/-- The full scan of a rendered file: one entry per region, in order, with
trimmed bodies. -/
theorem scanSnippets_render :
    ∀ (rs : List Region), (∀ r ∈ rs, wfRegion r) →
      scanSnippets (renderFile rs) = rs.map (fun r => (r.rname, jsTrim r.rbody)) := by
  intro rs
  induction rs with
  | nil => intro _; rfl
  | cons r rs ih =>
    intro hwf
    obtain ⟨hnm, hnmws, hcore, hchars, htrail⟩ := hwf r (by simp)
    have hihyp := ih (fun r' hr' => hwf r' (by simp [hr']))
    have e1 : "// @snippet:".toList = '/' :: '/' :: ' ' :: "@snippet:".toList := rfl
    have e2 : "// @end\n".toList = "// @end".toList ++ ['\n'] := rfl
    have hshape : renderFile (r :: rs) = '/' :: '/' :: ' ' ::
        ("@snippet:".toList ++ (r.rname ++ '\n' :: (r.rbody ++ '\n' ::
          ("// @end".toList ++ ('\n' :: renderFile rs))))) := by
      show renderRegion r ++ renderFile rs = _
      unfold renderRegion
      rw [e1, e2]
      simp [List.append_assoc]
    rw [hshape]
    rw [scanSnippets_skip (tryMatchAt_nonat (by decide))]
    rw [scanSnippets_skip (tryMatchAt_nonat (by decide))]
    rw [scanSnippets_skip (tryMatchAt_nonat (by decide))]
    obtain ⟨cap, hmatch, htrim⟩ :=
      tryMatchAt_region ('\n' :: renderFile rs) hnm hnmws hcore hchars htrail
    rw [scanSnippets_match hmatch, htrim]
    rw [scanSnippets_skip (tryMatchAt_nonat (by decide))]
    rw [hihyp]
    rfl

theorem mapGet_mapSet_self (m : SMap) (k v : List Char) :
    mapGet (mapSet m k v) k = some v := by
  induction m with
  | nil => simp [mapSet, mapGet]
  | cons p t ih =>
    obtain ⟨k', v'⟩ := p
    unfold mapSet
    by_cases hk : k' = k
    · rw [if_pos hk]
      simp [mapGet]
    · rw [if_neg hk]
      unfold mapGet
      rw [if_neg hk]
      exact ih

theorem mapGet_mapSet_ne (m : SMap) {k k' : List Char} (v : List Char) (h : k ≠ k') :
    mapGet (mapSet m k v) k' = mapGet m k' := by
  induction m with
  | nil => simp [mapSet, mapGet, h]
  | cons p t ih =>
    obtain ⟨k'', v''⟩ := p
    unfold mapSet
    by_cases hk : k'' = k
    · rw [if_pos hk]
      unfold mapGet
      rw [if_neg h, hk]
      rw [if_neg (hk ▸ h)]
    · rw [if_neg hk]
      unfold mapGet
      by_cases hk2 : k'' = k'
      · rw [if_pos hk2, if_pos hk2]
      · rw [if_neg hk2, if_neg hk2]
        exact ih

theorem length_mapSet_of_none {m : SMap} {k : List Char} (v : List Char)
    (h : mapGet m k = none) : (mapSet m k v).length = m.length + 1 := by
  induction m with
  | nil => simp [mapSet]
  | cons p t ih =>
    obtain ⟨k', v'⟩ := p
    unfold mapGet at h
    by_cases hk : k' = k
    · rw [if_pos hk] at h
      exact absurd h (by simp)
    · rw [if_neg hk] at h
      unfold mapSet
      rw [if_neg hk]
      simp [ih h]

/-- Folding `set` over entries whose keys are fresh and pairwise distinct
adds one map entry per list entry. -/
theorem foldl_mapSet_length :
    ∀ (l : List (List Char × List Char)) (m : SMap),
      (∀ p ∈ l, mapGet m p.1 = none) →
      l.Pairwise (fun a b => a.1 ≠ b.1) →
      (l.foldl (fun m p => mapSet m p.1 p.2) m).length = m.length + l.length := by
  intro l
  induction l with
  | nil => intro m _ _; simp
  | cons p t ih =>
    intro m hfresh hdist
    obtain ⟨k, v⟩ := p
    simp only [List.foldl_cons]
    have hfresh' : ∀ q ∈ t, mapGet (mapSet m k v) q.1 = none := by
      intro q hq
      have hne : k ≠ q.1 := (List.pairwise_cons.mp hdist).1 q hq
      rw [mapGet_mapSet_ne m v hne]
      exact hfresh q (by simp [hq])
    have := ih (mapSet m k v) hfresh' (List.pairwise_cons.mp hdist).2
    rw [this, length_mapSet_of_none v (hfresh (k, v) (by simp))]
    simp [List.length_cons]
    omega

/-- Keys absent from the folded entries pass through the fold. -/
theorem foldl_mapSet_get_absent :
    ∀ (l : List (List Char × List Char)) (m : SMap) (k : List Char),
      (∀ p ∈ l, p.1 ≠ k) →
      mapGet (l.foldl (fun m p => mapSet m p.1 p.2) m) k = mapGet m k := by
  intro l
  induction l with
  | nil => intro m k _; rfl
  | cons p t ih =>
    intro m k habs
    simp only [List.foldl_cons]
    rw [ih (mapSet m p.1 p.2) k (fun q hq => habs q (by simp [hq]))]
    exact mapGet_mapSet_ne m p.2 (habs p (by simp))

/-- With pairwise-distinct keys, folding `set` makes each entry's key look
up its value. -/
theorem foldl_mapSet_get_mem :
    ∀ (l : List (List Char × List Char)) (m : SMap) (k v : List Char),
      l.Pairwise (fun a b => a.1 ≠ b.1) → (k, v) ∈ l →
      mapGet (l.foldl (fun m p => mapSet m p.1 p.2) m) k = some v := by
  intro l
  induction l with
  | nil => intro m k v _ hmem; simp at hmem
  | cons p t ih =>
    intro m k v hdist hmem
    simp only [List.foldl_cons]
    rcases List.mem_cons.mp hmem with hmem | hmem
    · subst hmem
      rw [foldl_mapSet_get_absent t (mapSet m k v) k
        (fun q hq => ((List.pairwise_cons.mp hdist).1 q hq).symm)]
      exact mapGet_mapSet_self m k v
    · exact ih (mapSet m p.1 p.2) k v (List.pairwise_cons.mp hdist).2 hmem

/-- Modelled from the spec: the body text "trimmed of leading/trailing
blank lines before storage" — split into lines, drop the leading and
trailing lines that are empty or all-whitespace, and rejoin.  This is the
spec's stated storage rule, to be compared with the source's `.trim()`. -/
def splitLines : List Char → List (List Char)
  | [] => [[]]
  | c :: t =>
    match splitLines t with
    | [] => if c = '\n' then [[], []] else [[c]]
    | h :: r => if c = '\n' then [] :: h :: r else (c :: h) :: r

/-- Modelled from the spec: a blank line is empty or all whitespace. -/
def isBlankLine (l : List Char) : Bool :=
  l.all isWS

/-- Modelled from the spec: strip only the leading and trailing blank
lines of a body, leaving every other character intact. -/
def stripBlankLines (l : List Char) : List Char :=
  List.intercalate ['\n']
    ((((splitLines l).dropWhile isBlankLine).reverse.dropWhile isBlankLine).reverse)

/-- Claim C5 counterexample: a single region whose body line is `  x  `
(interior whitespace, no blank lines at all).  The spec's rule of
stripping only leading/trailing blank lines would store `  x  ` unchanged,
but the source stores `code.trim()`, which is `x`. -/
theorem c5_counterexample :
    parseSnippets "// @snippet:a\n  x  \n// @end\n".toList =
      [("a".toList, "x".toList)] ∧
    stripBlankLines "  x  ".toList = "  x  ".toList ∧
    "x".toList ≠ "  x  ".toList := by
  refine ⟨by decide, by decide, by decide⟩

/-- Claim C5 (amended): for every snippet file consisting of N well-formed
uniquely-named regions, parsing yields a mapping with exactly N entries,
and each entry's body equals the source text between its markers trimmed
of leading AND trailing WHITESPACE (JavaScript `trim`), not merely of
blank lines. -/
theorem c5_amended (rs : List Region) (hwf : ∀ r ∈ rs, wfRegion r)
    (hdist : rs.Pairwise (fun a b => a.rname ≠ b.rname)) :
    (parseSnippets (renderFile rs)).length = rs.length ∧
    ∀ r ∈ rs, mapGet (parseSnippets (renderFile rs)) r.rname = some (jsTrim r.rbody) := by
  have hscan := scanSnippets_render rs hwf
  have hdist' : (rs.map (fun r => (r.rname, jsTrim r.rbody))).Pairwise
      (fun a b => a.1 ≠ b.1) := by
    rw [List.pairwise_map]
    exact hdist
  constructor
  · unfold parseSnippets
    rw [hscan]
    have := foldl_mapSet_length (rs.map (fun r => (r.rname, jsTrim r.rbody))) []
      (fun p _ => rfl) hdist'
    rw [this]
    simp
  · intro r hr
    unfold parseSnippets
    rw [hscan]
    exact foldl_mapSet_get_mem _ [] r.rname (jsTrim r.rbody) hdist'
      (List.mem_map.mpr ⟨r, hr, rfl⟩)

/-- Witness for C5 (amended) at a two-region file. -/
theorem c5_amended_witness :
    (parseSnippets (renderFile
      [⟨"alpha".toList, "x = 1".toList⟩, ⟨"beta".toList, "  y = 2".toList⟩])).length = 2 ∧
    mapGet (parseSnippets (renderFile
      [⟨"alpha".toList, "x = 1".toList⟩, ⟨"beta".toList, "  y = 2".toList⟩]))
      "beta".toList = some "y = 2".toList := by
  have h := c5_amended
    [⟨"alpha".toList, "x = 1".toList⟩, ⟨"beta".toList, "  y = 2".toList⟩]
    (by intro r hr; fin_cases hr <;> decide)
    (by decide)
  refine ⟨h.1, ?_⟩
  have h2 := h.2 ⟨"beta".toList, "  y = 2".toList⟩ (by simp)
  have : jsTrim "  y = 2".toList = "y = 2".toList := by decide
  rw [this] at h2
  exact h2

/-- Claim C6: duplicate names, last occurrence wins.  For two well-formed
regions sharing one name, parsing yields exactly one entry, holding the
second (later) region's body; no error is raised (`parseSnippets` is
total).  The second body is assumed already whitespace-trimmed so that the
stored value is literally that body. -/
theorem c6_duplicate_last_wins (r1 r2 : Region) (hwf1 : wfRegion r1)
    (hwf2 : wfRegion r2) (hname : r1.rname = r2.rname)
    (htrim : jsTrim r2.rbody = r2.rbody) :
    parseSnippets (renderFile [r1, r2]) = [(r2.rname, r2.rbody)] := by
  have hscan := scanSnippets_render [r1, r2]
    (by intro r hr; rcases List.mem_cons.mp hr with h | h
        · rw [h]; exact hwf1
        · simp at h; rw [h]; exact hwf2)
  unfold parseSnippets
  rw [hscan]
  simp only [List.map_cons, List.map_nil, List.foldl_cons, List.foldl_nil]
  show mapSet (mapSet [] r1.rname (jsTrim r1.rbody)) r2.rname (jsTrim r2.rbody) =
    [(r2.rname, r2.rbody)]
  rw [htrim]
  simp [mapSet, hname]

/-- Witness for C6 at two concrete regions named `dup`. -/
theorem c6_duplicate_last_wins_witness :
    parseSnippets (renderFile
      [⟨"dup".toList, "first body".toList⟩, ⟨"dup".toList, "second body".toList⟩]) =
      [("dup".toList, "second body".toList)] := by
  exact c6_duplicate_last_wins
    ⟨"dup".toList, "first body".toList⟩ ⟨"dup".toList, "second body".toList⟩
    (by decide) (by decide) (by decide) (by decide)

/-- Claim C9 counterexample: `parseSnippets` takes no language parameter,
and a bare `@snippet:a` start marker with no comment prefix of any kind
delimits a region (here even closed by a Python-style `#` end marker in
what would be a TypeScript file) — refuting the claim that a region is
recognized only when both markers carry the file's language's own
line-comment prefix. -/
theorem c9_counterexample :
    parseSnippets "@snippet:a\nx\n# @end".toList = [("a".toList, "x".toList)] := by
  decide

/-- Claim C9 (amended): the start marker is the bare token `@snippet:<name>`
wherever it appears, with no comment-prefix requirement; the end marker is
a newline, optional whitespace, then `//` or `#` — either accepted for
every language, since the parser is language-independent — then optional
whitespace and `@end`; a bare `@end` or one behind any other character
does not end a region.  Universally, the end tail accepts both comment
styles and rejects the unprefixed token. -/
theorem c9_amended :
    (∀ tail : List Char, matchEndTail ("// @end".toList ++ tail) = some tail) ∧
    (∀ tail : List Char, matchEndTail ("# @end".toList ++ tail) = some tail) ∧
    (∀ tail : List Char, matchEndTail ("@end".toList ++ tail) = none) ∧
    parseSnippets "@snippet:a\nx\n// @end".toList = [("a".toList, "x".toList)] ∧
    parseSnippets "@snippet:a\nx\n# @end".toList = [("a".toList, "x".toList)] ∧
    parseSnippets "@snippet:a\nx\n@end".toList = [] ∧
    parseSnippets "@snippet:a\nx\nq @end".toList = [] := by
  refine ⟨matchEndTail_marker, ?_, ?_, by decide, by decide, by decide, by decide⟩
  · intro tail
    unfold matchEndTail
    have h1 : ("# @end".toList ++ tail).dropWhile isWS = "# @end".toList ++ tail := rfl
    rw [h1]
    have h2 : stripPre "//".toList ("# @end".toList ++ tail) = none := by
      simp [stripPre]
    rw [h2]
    have h3 : stripPre "#".toList ("# @end".toList ++ tail) = some (" @end".toList ++ tail) := by
      have : "# @end".toList ++ tail = "#".toList ++ (" @end".toList ++ tail) := rfl
      rw [this, stripPre_append]
    rw [h3]
    have h4 : (" @end".toList ++ tail).dropWhile isWS = "@end".toList ++ tail := rfl
    simp only [h4]
    rw [stripPre_append]
  · intro tail
    unfold matchEndTail
    have h1 : ("@end".toList ++ tail).dropWhile isWS = "@end".toList ++ tail := rfl
    rw [h1]
    have h2 : stripPre "//".toList ("@end".toList ++ tail) = none := by
      simp [stripPre]
    have h3 : stripPre "#".toList ("@end".toList ++ tail) = none := by
      simp [stripPre]
    rw [h2, h3]

/-- `path.join` on the plain relative segments the build uses. -/
def joinPath : List (List Char) → List Char
  | [] => []
  | [a] => a
  | a :: rest => a ++ '/' :: joinPath rest

/-- The snippet-file location of `loadSnippets`:
`join(SRC_DIR, skillDir, "code", language, templateName.replace(".md", "." + ext))`. -/
def codeFilePath (skillDir : List Char) (lang : Lang) (templateFile : List Char) : List Char :=
  joinPath ["src".toList, skillDir, "code".toList, langName lang,
    replaceFirst ".md".toList ('.' :: langExt lang) templateFile]

/-- The template location used in error messages:
`join(SRC_DIR, skillDir, "templates", templateFile)`. -/
def templatePathOf (skillDir templateFile : List Char) : List Char :=
  joinPath ["src".toList, skillDir, "templates".toList, templateFile]

/-- The per-variant output location:
`join(OUTPUT_DIR, skillDir, topicName, language + ".md")`. -/
def outputPathOf (skillDir topicName : List Char) (lang : Lang) : List Char :=
  joinPath ["skills".toList, skillDir, topicName, langName lang ++ ".md".toList]

/-- The warning `loadSnippets` logs when the code file is absent. -/
def missingFileWarning (codeFile : List Char) : List Char :=
  "Warning: Code file not found: ".toList ++ codeFile

/-- `loadSnippets` of the build script over an abstract filesystem (a
function from path to optional content): parse the file when present;
when absent, log the warning and continue with an empty mapping. -/
def loadSnippets (fs : List Char → Option (List Char)) (skillDir : List Char)
    (lang : Lang) (templateFile : List Char) : SMap × List (List Char) :=
  match fs (codeFilePath skillDir lang templateFile) with
  | some content => (parseSnippets content, [])
  | none => ([], [missingFileWarning (codeFilePath skillDir lang templateFile)])

/-- The outcome of building one topic: the files written (in write order),
the warnings logged, and the uncaught expansion error, if one was thrown.
Files written before a throw remain written. -/
structure BuildOutcome where
  outputs : List (List Char × List Char)
  warnings : List (List Char)
  failure : Option (List Char)
deriving DecidableEq

/-- The `for (const language of LANGUAGES)` loop of `buildSkill` for one
topic: load that language's snippets, expand the template, write the
output; an expansion error propagates immediately, ending the topic (and,
uncaught in `main`, the whole build) while keeping earlier outputs. -/
def buildLangs (fs : List Char → Option (List Char))
    (skillDir templateFile template : List Char) :
    List Lang → List (List Char × List Char) → List (List Char) → BuildOutcome
  | [], outs, warns => ⟨outs, warns, none⟩
  | lang :: rest, outs, warns =>
    let p := loadSnippets fs skillDir lang templateFile
    match replaceCodePlaceholders template p.1 lang (templatePathOf skillDir templateFile) with
    | .error e => ⟨outs, warns ++ p.2, some e⟩
    | .ok out =>
      buildLangs fs skillDir templateFile template rest
        (outs ++ [(outputPathOf skillDir (replaceFirst ".md".toList [] templateFile) lang, out)])
        (warns ++ p.2)

/-- One topic of `buildSkill`: all languages in `LANGUAGES` order. -/
def buildTopic (fs : List Char → Option (List Char))
    (skillDir templateFile template : List Char) : BuildOutcome :=
  buildLangs fs skillDir templateFile template LANGS [] []

/-- A template the scan finds no placeholder in expands to itself. -/
theorem expandScan_no_names (m : SMap) (lang : Lang) :
    ∀ t, findNames t = [] → expandScan m lang t = (t, []) := by
  have H : ∀ n t, t.length ≤ n → findNames t = [] → expandScan m lang t = (t, []) := by
    intro n
    induction n with
    | zero =>
      intro t h _
      have : t = [] := List.length_eq_zero.mp (Nat.le_zero.mp h)
      subst this
      exact expandScan_nil m lang
    | succ n ih =>
      intro t h hn
      cases t with
      | nil => exact expandScan_nil m lang
      | cons c t' =>
        cases hp : tryPlaceholder (c :: t') with
        | some pr =>
          obtain ⟨nm, rest⟩ := pr
          rw [findNames_match hp] at hn
          exact absurd hn (by simp)
        | none =>
          rw [findNames_skip hp] at hn
          rw [expandScan_skip m lang hp, ih t' (by simp at h; omega) hn]
  intro t
  exact H t.length t le_rfl

theorem replaceCodePlaceholders_no_names {template : List Char} (m : SMap) (lang : Lang)
    (path : List Char) (h : findNames template = []) :
    replaceCodePlaceholders template m lang path = .ok template := by
  unfold replaceCodePlaceholders
  rw [expandScan_no_names m lang template h]
  simp

/-- Claim C3 counterexample: a topic whose template has a placeholder and
whose Python snippet file is absent.  The TypeScript variant is written
and the missing-file warning is logged, but the Python expansion with the
empty mapping throws, so the topic — and, propagated uncaught through
`buildSkill` and `main().catch`, the whole build — aborts with the
aggregate error rather than continuing. -/
theorem c3_counterexample :
    buildTopic
      (fun p => if p = "src/chroma/code/typescript/t.ts".toList
        then some "// @snippet:x\nconst a = 1;\n// @end\n".toList else none)
      "chroma".toList "t.md".toList "\x7b\x7bCODE:x\x7d\x7d".toList =
      ⟨[("skills/chroma/t/typescript.md".toList, "```typescript\nconst a = 1;\n```".toList)],
       ["Warning: Code file not found: src/chroma/code/python/t.py".toList],
       some "Missing snippets for python in src/chroma/templates/t.md: x".toList⟩ := by
  decide

/-- Claim C3 (amended): when a topic's Python snippet file is absent, the
build logs exactly one non-fatal warning for it and proceeds with an empty
mapping — and PROVIDED the template contains no placeholders, both
variants are still written from the template unchanged and neither the
topic nor the build aborts.  (With placeholders present, the empty mapping
makes expansion throw, as the counterexample shows.) -/
theorem c3_amended (fs : List Char → Option (List Char))
    (skillDir templateFile template content : List Char)
    (hts : fs (codeFilePath skillDir .typescript templateFile) = some content)
    (hpy : fs (codeFilePath skillDir .python templateFile) = none)
    (hnp : findNames template = []) :
    buildTopic fs skillDir templateFile template =
      ⟨[(outputPathOf skillDir (replaceFirst ".md".toList [] templateFile) .typescript,
          template),
        (outputPathOf skillDir (replaceFirst ".md".toList [] templateFile) .python,
          template)],
       [missingFileWarning (codeFilePath skillDir .python templateFile)],
       none⟩ := by
  unfold buildTopic LANGS
  simp only [buildLangs, loadSnippets, hts, hpy,
    replaceCodePlaceholders_no_names _ _ _ hnp]
  simp

/-- Witness for C3 (amended): a concrete topic with a placeholder-free
template and an absent Python snippet file builds both variants and logs
one warning. -/
theorem c3_amended_witness :
    buildTopic
      (fun p => if p = "src/chroma/code/typescript/t.ts".toList
        then some "// @snippet:x\nconst a = 1;\n// @end\n".toList else none)
      "chroma".toList "t.md".toList "plain text only".toList =
      ⟨[("skills/chroma/t/typescript.md".toList, "plain text only".toList),
        ("skills/chroma/t/python.md".toList, "plain text only".toList)],
       ["Warning: Code file not found: src/chroma/code/python/t.py".toList],
       none⟩ := by
  have h := c3_amended
    (fun p => if p = "src/chroma/code/typescript/t.ts".toList
      then some "// @snippet:x\nconst a = 1;\n// @end\n".toList else none)
    "chroma".toList "t.md".toList "plain text only".toList
    "// @snippet:x\nconst a = 1;\n// @end\n".toList
    (by decide) (by decide) (by decide)
  rw [h]
  decide
